import Mathlib

/-!
Verification of the `dufmt` disk-usage formatter and its `dircolors`
color-classification library, shallowly embedded from the Go sources.

Go strings are modelled as lists of characters (`GoStr`); the external
collaborators (the `du` subprocess, the filesystem, the `LS_COLORS`
environment variable, the `go-humanize` formatting library and the
terminal check) are passed in as explicit data, exactly where the Go
code consumes their results.
-/

namespace DuFmt

/-- Go strings, modelled as lists of characters. -/
abbrev GoStr := List Char

/-- `strings.Split` / `bytes.Split` with a single-character separator.
On the empty string it returns `[[]]`, as Go's `Split` returns `[""]`. -/
def splitOnChar (c : Char) : GoStr → List GoStr
  | [] => [[]]
  | x :: xs =>
    match splitOnChar c xs with
    | [] => [[x]]
    | r :: rs => if x = c then [] :: r :: rs else (x :: r) :: rs

/-- `strings.SplitN (s, sep, 2)` with a single-character separator: the part
before the first separator, and — when a separator occurs at all — the rest
of the string after it (so the result has one or two fields, as in Go). -/
def splitN2Char (c : Char) : GoStr → GoStr × Option GoStr
  | [] => ([], none)
  | x :: xs =>
    if x = c then ([], some xs)
    else
      let r := splitN2Char c xs
      (x :: r.1, r.2)

/-- Decimal digit test, as in `strconv`: `'0' <= c && c <= '9'`. -/
def isDigitChar (c : Char) : Bool := '0' ≤ c && c ≤ '9'

/-- Numeric value of a string of decimal digits. -/
def digitsVal (ds : GoStr) : Nat :=
  ds.foldl (fun a c => a * 10 + (c.toNat - 48)) 0

/-- Sign handling of `strconv.Atoi`: a leading `+` or `-` is stripped and
determines the sign of the result. -/
def goAtoiSign (s : GoStr) : Int × GoStr :=
  match s with
  | [] => (1, [])
  | c :: rest =>
    if c = '+' then (1, rest)
    else if c = '-' then (-1, rest)
    else (1, c :: rest)

/-- `strconv.Atoi` on a 64-bit platform: an optional `+`/`-` sign followed by
at least one decimal digit and nothing else, with the value required to fit
in `int64` (out-of-range input makes `Atoi` report `ErrRange`). -/
def goAtoi (s : GoStr) : Option Int :=
  let p := goAtoiSign s
  if p.2 = [] then none
  else if p.2.all isDigitChar then
    let v : Int := p.1 * digitsVal p.2
    if -(2 ^ 63) ≤ v ∧ v ≤ 2 ^ 63 - 1 then some v else none
  else none

/-- `duInfo` from `dufmt.go`: one record per line of `du` output. -/
structure duInfo where
  name : GoStr
  size : Int
  childrenCount : Nat
  deriving Repr, DecidableEq

/-- Outcome of `newDuSlice`. A Go runtime panic (index out of range) is a
distinguished outcome, separate from a returned `error`. -/
inductive ParseOutcome where
  | panicked
  | failed (line : GoStr)
  | ok (records : List duInfo)
  deriving Repr, DecidableEq

/-- The per-line loop of `newDuSlice` from `dufmt.go`. For each non-empty
line: `items := strings.SplitN(line, "\t", 2)`, then `strconv.Atoi(items[0])`
— an `Atoi` failure returns an error carrying the line — and then the Go code
reads `items[1]`, which panics when the line contained no tab. The
filesystem child counter is abstracted as the oracle `cnt`. -/
def newDuSliceGo (cnt : GoStr → Nat) : List GoStr → ParseOutcome
  | [] => .ok []
  | line :: rest =>
    if line = [] then newDuSliceGo cnt rest
    else
      let items := splitN2Char '\t' line
      match goAtoi items.1 with
      | none => .failed line
      | some v =>
        match items.2 with
        | none => .panicked
        | some name =>
          match newDuSliceGo cnt rest with
          | .ok s => .ok (⟨name, v, cnt name⟩ :: s)
          | e => e

/-- `newDuSlice` from `dufmt.go`: split the raw `du` output on newlines and
parse each non-empty line. -/
def newDuSlice (cnt : GoStr → Nat) (data : GoStr) : ParseOutcome :=
  newDuSliceGo cnt (splitOnChar '\n' data)

/-- Go map assignment `m[k] = v`, on an association-list model of a map. -/
def mapInsert (m : List (GoStr × GoStr)) (k v : GoStr) : List (GoStr × GoStr) :=
  match m with
  | [] => [(k, v)]
  | (k0, v0) :: rest => if k0 = k then (k, v) :: rest else (k0, v0) :: mapInsert rest k v

/-- Go map read `m[k]`, returning the zero value `""` for a missing key. -/
def mapLookup (m : List (GoStr × GoStr)) (k : GoStr) : GoStr :=
  match m with
  | [] => []
  | (k0, v0) :: rest => if k0 = k then v0 else mapLookup rest k

/-- Body of the `parseDircolors` loop for one colon-separated pair:
`items := strings.SplitN(pair, "=", 2); if len(items) == 2 { m[items[0]] = items[1] }`. -/
def dircolorsStep (m : List (GoStr × GoStr)) (pair : GoStr) : List (GoStr × GoStr) :=
  match splitN2Char '=' pair with
  | (k, some v) => mapInsert m k v
  | (_, none) => m

/-- The pure part of `parseDircolors` from the `dircolors` package, as a
function of the colon-separated specification string (the `LS_COLORS` /
`dircolors -b` retrieval is an external source). -/
def parseDircolors (s : GoStr) : List (GoStr × GoStr) :=
  (splitOnChar ':' s).foldl dircolorsStep []

example : splitOnChar '\n' "a\nb".data = ["a".data, "b".data] := by decide
example : splitOnChar '\n' "a\n".data = ["a".data, []] := by decide
example : splitOnChar '\n' [] = [[]] := by decide
example : splitN2Char '\t' "12\tx\ty".data = ("12".data, some "x\ty".data) := by decide
example : splitN2Char '\t' "123".data = ("123".data, none) := by decide
example : goAtoi "123".data = some 123 := by decide
example : goAtoi "-5".data = some (-5) := by decide
example : goAtoi "+7".data = some 7 := by decide
example : goAtoi "12a".data = none := by decide
example : goAtoi "".data = none := by decide
example : goAtoi "-".data = none := by decide
example : newDuSlice (fun _ => 0) "123\n".data = .panicked := by decide
example : newDuSlice (fun _ => 0) "notanumber\t/x\n".data = .failed "notanumber\t/x".data := by
  decide
example : newDuSlice (fun _ => 0) "-5\tx".data = .ok [⟨"x".data, -5, 0⟩] := by decide
example : newDuSlice (fun _ => 0) "4096\t/tmp\n1024\t/tmp/a\n".data =
    .ok [⟨"/tmp".data, 4096, 0⟩, ⟨"/tmp/a".data, 1024, 0⟩] := by decide
example : parseDircolors "a=b=c".data = [("a".data, "b=c".data)] := by decide
example : parseDircolors "di=01;34:xyz:ln=01;36".data =
    [("di".data, "01;34".data), ("ln".data, "01;36".data)] := by decide

/-! Basic lemmas about the string primitives. -/

theorem splitOnChar_of_not_mem {c : Char} {s : GoStr} (h : c ∉ s) :
    splitOnChar c s = [s] := by
  induction s with
  | nil => rfl
  | cons x xs ih =>
    have hx : ¬x = c := fun e => h (e ▸ List.mem_cons_self x xs)
    have h2 : c ∉ xs := fun m => h (List.mem_cons_of_mem _ m)
    simp [splitOnChar, ih h2, hx]

theorem splitN2Char_of_not_mem {c : Char} {s : GoStr} (h : c ∉ s) :
    splitN2Char c s = (s, none) := by
  induction s with
  | nil => rfl
  | cons x xs ih =>
    have hx : ¬x = c := fun e => h (e ▸ List.mem_cons_self x xs)
    have h2 : c ∉ xs := fun m => h (List.mem_cons_of_mem _ m)
    simp [splitN2Char, ih h2, hx]

theorem splitN2Char_append {c : Char} {k v : GoStr} (h : c ∉ k) :
    splitN2Char c (k ++ c :: v) = (k, some v) := by
  induction k with
  | nil => simp [splitN2Char]
  | cons x xs ih =>
    have hx : ¬x = c := fun e => h (e ▸ List.mem_cons_self x xs)
    have h2 : c ∉ xs := fun m => h (List.mem_cons_of_mem _ m)
    simp [splitN2Char, ih h2, hx]

theorem mem_split_first {c : Char} {s : GoStr} (h : c ∈ s) :
    ∃ k v, s = k ++ c :: v ∧ c ∉ k := by
  induction s with
  | nil => cases h
  | cons x xs ih =>
    by_cases hx : x = c
    · exact ⟨[], xs, by simp [hx], by simp⟩
    · have h2 : c ∈ xs := by
        rcases List.mem_cons.mp h with h1 | h1
        · exact absurd h1.symm hx
        · exact h1
      obtain ⟨k, v, hkv, hk⟩ := ih h2
      refine ⟨x :: k, v, by simp [hkv], ?_⟩
      simp only [List.mem_cons, not_or]
      exact ⟨fun e => hx e.symm, hk⟩

theorem goAtoi_chars {s : GoStr} {v : Int} (hA : goAtoi s = some v) :
    ∀ c ∈ s, c = '+' ∨ c = '-' ∨ isDigitChar c = true := by
  intro c hc
  have hd : (goAtoiSign s).2.all isDigitChar = true := by
    by_cases h1 : (goAtoiSign s).2 = []
    · simp [goAtoi, h1] at hA
    · by_cases h2 : (goAtoiSign s).2.all isDigitChar
      · exact h2
      · simp [goAtoi, h1, h2] at hA
  cases s with
  | nil => cases hc
  | cons x xs =>
    by_cases hp : x = '+'
    · have : (goAtoiSign (x :: xs)).2 = xs := by simp [goAtoiSign, hp]
      rcases List.mem_cons.mp hc with h1 | h1
      · exact Or.inl (h1.trans hp)
      · exact Or.inr (Or.inr (List.all_eq_true.mp (this ▸ hd) c h1))
    · by_cases hm : x = '-'
      · have : (goAtoiSign (x :: xs)).2 = xs := by simp [goAtoiSign, hp, hm]
        rcases List.mem_cons.mp hc with h1 | h1
        · exact Or.inr (Or.inl (h1.trans hm))
        · exact Or.inr (Or.inr (List.all_eq_true.mp (this ▸ hd) c h1))
      · have : (goAtoiSign (x :: xs)).2 = x :: xs := by simp [goAtoiSign, hp, hm]
        exact Or.inr (Or.inr (List.all_eq_true.mp (this ▸ hd) c hc))

theorem goAtoi_no_nl_tab {s : GoStr} {v : Int} (hA : goAtoi s = some v) :
    ('\n' : Char) ∉ s ∧ ('\t' : Char) ∉ s := by
  constructor
  · intro hm
    rcases goAtoi_chars hA _ hm with h | h | h <;> revert h <;> decide
  · intro hm
    rcases goAtoi_chars hA _ hm with h | h | h <;> revert h <;> decide

theorem mapLookup_mapInsert_self (m : List (GoStr × GoStr)) (k v : GoStr) :
    mapLookup (mapInsert m k v) k = v := by
  induction m with
  | nil => simp [mapInsert, mapLookup]
  | cons p rest ih =>
    obtain ⟨k0, v0⟩ := p
    by_cases h : k0 = k
    · simp [mapInsert, mapLookup, h]
    · simp [mapInsert, mapLookup, h, ih]

/-! Claim theorems about the report parser. -/

/-- C3 (code_bug evidence): on the input `"123\n"` — a single non-empty line
that contains no tab character but whose text parses as an integer — the Go
`newDuSlice` does not return a `MalformedReportError`: after `Atoi` succeeds
it reads `items[1]` from a one-element slice, which panics with an index out
of range. The spec requires an error carrying the offending line instead. -/
theorem newDuSlice_tabless_numeric_line_panics :
    newDuSlice (fun _ => 0) "123\n".data = .panicked := by decide

/-- C8 (counterexample): the line `"-5\tx"` — whose size text denotes a
negative integer — is accepted by `newDuSlice` and produces a record whose
size is `-5 < 0`, refuting the claim that every produced record has a
non-negative size and that negative size texts are rejected. -/
theorem newDuSlice_accepts_negative_size :
    newDuSlice (fun _ => 0) "-5\tx".data = .ok [⟨"x".data, -5, 0⟩] ∧ (-5 : Int) < 0 := by
  decide

/-- C8 (amended): for every line the parser accepts, the size field is parsed
by `strconv.Atoi` as a base-10 signed integer: any single report line whose
size text `Atoi`-parses to a value `v` — including negative `v` — yields
exactly one record with that name and size `v`. -/
theorem newDuSlice_parses_signed_size (cnt : GoStr → Nat) (sizeText name : GoStr) (v : Int)
    (hA : goAtoi sizeText = some v) (hn : ('\n' : Char) ∉ name) :
    newDuSlice cnt (sizeText ++ '\t' :: name) = .ok [⟨name, v, cnt name⟩] := by
  obtain ⟨hnl, htb⟩ := goAtoi_no_nl_tab hA
  have hline : ('\n' : Char) ∉ sizeText ++ '\t' :: name := by
    simp only [List.mem_append, List.mem_cons, not_or]
    exact ⟨hnl, by decide, hn⟩
  have hne : sizeText ++ '\t' :: name ≠ [] := by simp
  unfold newDuSlice
  rw [splitOnChar_of_not_mem hline]
  unfold newDuSliceGo
  rw [if_neg hne]
  simp only [splitN2Char_append htb, hA]
  rfl

/-- C8 (witness): instantiating the amended theorem at the concrete line
`"-41\tf"` produces the single record with the negative size `-41`. -/
theorem newDuSlice_parses_signed_size_witness :
    newDuSlice (fun _ => 0) ("-41".data ++ '\t' :: "f".data) =
      .ok [⟨"f".data, -41, 0⟩] :=
  newDuSlice_parses_signed_size (fun _ => 0) "-41".data "f".data (-41)
    (by decide) (by decide)

/-! Claim theorems about the dircolors specification parser. -/

/-- C6 (counterexample): the specification string `"a=b=c"` consists of a
single pair containing two `=` characters; the claim says no entry is added
for it, but `parseDircolors` stores the entry `("a", "b=c")` — `SplitN` with
limit 2 yields exactly two fields whenever at least one `=` is present. -/
theorem parseDircolors_stores_two_eq_pair :
    parseDircolors "a=b=c".data = [("a".data, "b=c".data)] ∧
    mapLookup (parseDircolors "a=b=c".data) "a".data = "b=c".data := by decide

/-- C6 (amended): when building the color database, a pair is stored if and
only if it contains at least one `=`: a pair decomposing as `k ++ "=" ++ v`
with no `=` in `k` is stored as key `k` and value `v` (so a pair with two
`=` stores everything after the first `=` as the value), a pair with no `=`
is silently skipped, and every pair containing `=` decomposes that way. -/
theorem dircolorsStep_stores_iff_has_eq :
    (∀ m k v, ('=' : Char) ∉ k →
      dircolorsStep m (k ++ '=' :: v) = mapInsert m k v) ∧
    (∀ m pair, ('=' : Char) ∉ pair → dircolorsStep m pair = m) ∧
    (∀ pair : GoStr, ('=' : Char) ∈ pair → ∃ k v, pair = k ++ '=' :: v ∧ ('=' : Char) ∉ k) := by
  refine ⟨fun m k v hk => ?_, fun m pair hp => ?_, fun pair hp => mem_split_first hp⟩
  · simp [dircolorsStep, splitN2Char_append hk]
  · simp [dircolorsStep, splitN2Char_of_not_mem hp]

/-- C6 (witness): the amended theorem applied at the concrete pairs
`"a=b=c"` (stored, value `"b=c"`) and `"rs"` (skipped). -/
theorem dircolorsStep_stores_iff_has_eq_witness :
    dircolorsStep [] ("a".data ++ '=' :: "b=c".data) = mapInsert [] "a".data "b=c".data ∧
    dircolorsStep [] "rs".data = [] :=
  ⟨dircolorsStep_stores_iff_has_eq.1 [] "a".data "b=c".data (by decide),
   dircolorsStep_stores_iff_has_eq.2.1 [] "rs".data (by decide)⟩

/-! The dircolors classifier (`Key`) and colorizer (`ForTTY`). -/

/-- Metadata of a path as observed by `os.Lstat` plus the two further probes
`Key` makes: whether `os.Readlink` succeeds, and whether `info.Sys()` is a
`*syscall.Stat_t` (`statOk`, false on an unsupported platform) together with
the hard-link count it carries. -/
structure FileMeta where
  isDir : Bool
  modeSymlink : Bool
  readlinkOk : Bool
  modeNamedPipe : Bool
  modeSocket : Bool
  modeDevice : Bool
  modeCharDevice : Bool
  modeSetuid : Bool
  modeSetgid : Bool
  modeExec : Bool
  statOk : Bool
  nlink : Nat
  deriving Repr, DecidableEq

/-- Result of `os.Lstat` on a path: the path does not exist, some other
lstat error, or success with the file's metadata. -/
inductive LstatResult where
  | notExist
  | errOther
  | ok (m : FileMeta)
  deriving Repr, DecidableEq

/-- `filepath.Ext`: the suffix beginning at the final dot in the final
slash-separated element of the path; empty when there is no dot. The helper
scans the reversed path, accumulating the scanned suffix. -/
def extFromRev : GoStr → GoStr → GoStr
  | [], _ => []
  | c :: rest, acc =>
    if c = '/' then []
    else if c = '.' then c :: acc
    else extFromRev rest (c :: acc)

/-- `filepath.Ext path` on Linux (the path separator is `'/'`). -/
def filepathExt (path : GoStr) : GoStr := extFromRev path.reverse []

/-- `Key` from the dircolors package: the dircolors code for a path, given
the lstat result for it. `Except.error` marks the cases where the Go code
returns a non-nil error: an lstat failure other than not-exist, and
`"unsupported system"` when `info.Sys()` is not a `*syscall.Stat_t`. -/
def Key (fpath : GoStr) (r : LstatResult) : Except GoStr GoStr :=
  match r with
  | .notExist => .ok "or".data
  | .errOther => .error "lstat error".data
  | .ok m =>
    if m.isDir then .ok "di".data
    else if m.modeSymlink then
      (if m.readlinkOk then .ok "ln".data else .ok "or".data)
    else if m.modeNamedPipe then .ok "pi".data
    else if m.modeSocket then .ok "so".data
    else if m.modeDevice then
      (if m.modeCharDevice then .ok "cd".data else .ok "bd".data)
    else if m.modeSetuid then .ok "su".data
    else if m.modeSetgid then .ok "sg".data
    else if m.modeExec then .ok "ex".data
    else if !m.statOk then .error "unsupported system".data
    else if m.nlink > 1 then .ok "mh".data
    else if filepathExt fpath ≠ [] then .ok ('*' :: filepathExt fpath)
    else .ok "rs".data

/-- First-match selection over a list of (condition, code) rules, with the
fallback code `"rs"` (reset / normal file). -/
def firstMatch : List (Bool × GoStr) → GoStr
  | [] => "rs".data
  | (b, code) :: rest => if b then code else firstMatch rest

/-- Modelled from the spec: the priority-ordered rule list of spec §4.3
(rules 2-11; rule 1, nonexistence, is handled before metadata is available,
and rule 12 is the fallback of `firstMatch`). Written from the spec's words,
for comparison with `Key`. -/
def specRules (fpath : GoStr) (m : FileMeta) : List (Bool × GoStr) :=
  [ (m.isDir, "di".data),
    (m.modeSymlink && !m.readlinkOk, "or".data),
    (m.modeSymlink, "ln".data),
    (m.modeNamedPipe, "pi".data),
    (m.modeSocket, "so".data),
    (m.modeDevice && m.modeCharDevice, "cd".data),
    (m.modeDevice, "bd".data),
    (m.modeSetuid, "su".data),
    (m.modeSetgid, "sg".data),
    (m.modeExec, "ex".data),
    (decide (m.nlink > 1), "mh".data),
    (decide (filepathExt fpath ≠ []), '*' :: filepathExt fpath) ]

/-- C4: the classifier returns exactly one code per path, equal to the first
matching rule of spec §4.3's priority list: a nonexistent path is `or`, and
for existing paths (on a supported platform, `statOk`) `Key` agrees with the
first-match evaluation of the spec's rule list — so in particular a setuid
or executable directory is `di` and an executable multi-hardlink file is
`ex`. -/
theorem Key_matches_spec_priority (fpath : GoStr) (m : FileMeta) (h : m.statOk = true) :
    Key fpath (.ok m) = .ok (firstMatch (specRules fpath m)) ∧
    Key fpath .notExist = .ok "or".data := by
  refine ⟨?_, rfl⟩
  cases hd : m.isDir <;> cases hsl : m.modeSymlink <;> cases hrl : m.readlinkOk <;>
    cases hpi : m.modeNamedPipe <;> cases hso : m.modeSocket <;>
    cases hdev : m.modeDevice <;> cases hcd : m.modeCharDevice <;>
    cases hsu : m.modeSetuid <;> cases hsg : m.modeSetgid <;> cases hex : m.modeExec <;>
    simp [Key, specRules, firstMatch, h, hd, hsl, hrl, hpi, hso, hdev, hcd, hsu, hsg, hex]
  all_goals split_ifs <;> rfl

/-- C4 (witness): the priority theorem applied to a setuid executable
directory (classified `di`) and to an executable file with two hard links
(classified `ex`, not `mh`). -/
theorem Key_matches_spec_priority_witness :
    Key "/x".data (.ok ⟨true, false, false, false, false, false, false,
        true, false, true, true, 1⟩) = .ok "di".data ∧
    Key "/y".data (.ok ⟨false, false, false, false, false, false, false,
        false, false, true, true, 2⟩) = .ok "ex".data :=
  ⟨((Key_matches_spec_priority "/x".data _ rfl).1).trans (by rfl),
   ((Key_matches_spec_priority "/y".data _ rfl).1).trans (by rfl)⟩

/-- `ForTTY` from the dircolors package: wrap the path in the terminal color
sequence for its dircolors code; when `Key` returns an error, or when the
database carries no non-empty attribute for the code, return the path
unchanged. The color database (the lazily initialized package-level `tty`
map) and the lstat result are passed explicitly. -/
def ForTTY (db : List (GoStr × GoStr)) (fpath : GoStr) (r : LstatResult) : GoStr :=
  match Key fpath r with
  | .error _ => fpath
  | .ok key =>
    if mapLookup db key = [] then fpath
    else '\x1b' :: '[' :: (mapLookup db key ++
      'm' :: (fpath ++ ['\x1b', '[', '0', 'm']))

/-! The renderer (`WriteAll`, `formatCount`) from dufmt.go. -/

/-- Decimal digit string of a natural number, least-significant digit built
last (the rendering `fmt.Sprintf("%d", n)` produces). -/
def natDigits (n : Nat) : GoStr :=
  if h : n < 10 then [Char.ofNat (48 + n)]
  else natDigits (n / 10) ++ [Char.ofNat (48 + n % 10)]
decreasing_by exact Nat.div_lt_self (by omega) (by omega)

/-- Left padding with spaces to a minimum width, as `fmt.Sprintf("%9d")` and
`"%12s"` do (a longer string is not truncated). -/
def padLeft (w : Nat) (s : GoStr) : GoStr :=
  List.replicate (w - s.length) ' ' ++ s

/-- `formatCount` from dufmt.go: blank (nine spaces) for a count of at most
one, else the count right-justified in nine columns. -/
def formatCount (n : Nat) : GoStr :=
  if n ≤ 1 then List.replicate 9 ' ' else padLeft 9 (natDigits n)

/-- The Go conversion `uint64(i)` of a 64-bit signed integer: the value
modulo `2^64`. -/
def goUint64 (i : Int) : Nat := (i % (2 ^ 64 : Int)).toNat

/-- One line of `WriteAll` output for one record: `"%12s %s %s\n"` with the
humanized size — the go-humanize `IBytes` library call is abstracted as the
oracle `hum`, applied to the `uint64` conversion of the signed size — the
child-count field, and the name, colorized via `ForTTY` when colorization is
on. The per-path lstat results are the oracle `meta`. -/
def writeLine (hum : Nat → GoStr) (colorize : Bool) (db : List (GoStr × GoStr))
    (meta : GoStr → LstatResult) (info : duInfo) : GoStr :=
  let name := if colorize then ForTTY db info.name (meta info.name) else info.name
  padLeft 12 (hum (goUint64 info.size)) ++
    ' ' :: (formatCount info.childrenCount ++ ' ' :: name) ++ ['\n']

/-- `WriteAll` from dufmt.go: one output line per record, in order. -/
def WriteAll (hum : Nat → GoStr) (colorize : Bool) (db : List (GoStr × GoStr))
    (meta : GoStr → LstatResult) (s : List duInfo) : List GoStr :=
  s.map (writeLine hum colorize db meta)

/-- C5 (counterexample): on a platform where hard-link metadata is missing
(`statOk = false`, reached for a plain file with no special mode bits),
`Key` does fail with the `"unsupported system"` error — but the error is not
fatal: `ForTTY` swallows it and returns the path unchanged, and `WriteAll`
still renders the record's line (uncolorized name), rather than the
invocation aborting. -/
theorem Key_unsupported_not_fatal :
    Key "/x".data (.ok ⟨false, false, false, false, false, false, false,
        false, false, false, false, 1⟩) = .error "unsupported system".data ∧
    ForTTY [("rs".data, "0".data)] "/x".data (.ok ⟨false, false, false, false, false,
        false, false, false, false, false, false, 1⟩) = "/x".data ∧
    WriteAll (fun _ => "4.0 KiB".data) true [("rs".data, "0".data)]
      (fun _ => .ok ⟨false, false, false, false, false, false, false,
        false, false, false, false, 1⟩)
      [⟨"/x".data, 4096, 0⟩] =
      [padLeft 12 "4.0 KiB".data ++ ' ' :: (formatCount 0 ++ ' ' :: "/x".data) ++ ['\n']] := by
  refine ⟨rfl, rfl, rfl⟩

/-- C5 (amended): when hard-link-count metadata is unavailable, `Key` fails
with the unsupported-platform error, but the error is recovered locally, not
fatal: whenever `Key` returns any error, `ForTTY` renders the affected path
uncolorized (returns it unchanged), for every color database. -/
theorem ForTTY_recovers_from_Key_error (db : List (GoStr × GoStr)) (fpath : GoStr)
    (r : LstatResult) (e : GoStr) (h : Key fpath r = .error e) :
    ForTTY db fpath r = fpath := by
  unfold ForTTY
  rw [h]

/-- C5 (witness): the recovery theorem applied to a concrete unsupported-
platform lstat result and a non-empty database. -/
theorem ForTTY_recovers_from_Key_error_witness :
    ForTTY [("ex".data, "01;32".data)] "/w".data (.ok ⟨false, false, false, false, false,
        false, false, false, false, false, false, 3⟩) = "/w".data :=
  ForTTY_recovers_from_Key_error _ _ _ "unsupported system".data rfl

/-- C10: the renderer converts each record's signed size to an unsigned
64-bit value before human-readable formatting: every rendered line passes
`goUint64 size = size mod 2^64` to the humanizer, and for a negative stored
size in the int64 range the humanized value is the wrapped-around value
`size + 2^64 ≥ 2^63` — never a negative size or an error. -/
theorem writeLine_negative_size_wraps (hum : Nat → GoStr) (colorize : Bool)
    (db : List (GoStr × GoStr)) (meta : GoStr → LstatResult) (r : duInfo)
    (hneg : r.size < 0) (hrange : -(2 ^ 63) ≤ r.size) :
    writeLine hum colorize db meta r =
      padLeft 12 (hum ((r.size + 2 ^ 64).toNat)) ++
        ' ' :: (formatCount r.childrenCount ++
          ' ' :: (if colorize then ForTTY db r.name (meta r.name) else r.name)) ++ ['\n'] ∧
    goUint64 r.size = (r.size + 2 ^ 64).toNat ∧
    2 ^ 63 ≤ (r.size + 2 ^ 64).toNat := by
  have hmod : r.size % (2 ^ 64 : Int) = r.size + 2 ^ 64 := by
    have : r.size % (2 ^ 64 : Int) = (r.size + 2 ^ 64) % (2 ^ 64 : Int) := by
      omega
    rw [this, Int.emod_eq_of_lt (by omega) (by omega)]
  refine ⟨?_, ?_, ?_⟩
  · unfold writeLine goUint64
    rw [hmod]
  · unfold goUint64
    rw [hmod]
  · omega

/-- C10 (witness): a record of size `-1` is humanized at the value
`2^64 - 1` (the value just under 16 EiB). -/
theorem writeLine_negative_size_wraps_witness :
    writeLine (fun n => natDigits n) false [] (fun _ => .notExist) ⟨"n".data, -1, 0⟩ =
      padLeft 12 (natDigits ((-1 + 2 ^ 64 : Int).toNat)) ++
        ' ' :: (formatCount 0 ++ ' ' :: "n".data) ++ ['\n'] ∧
    goUint64 (-1) = ((-1 + 2 ^ 64 : Int)).toNat ∧
    2 ^ 63 ≤ ((-1 + 2 ^ 64 : Int)).toNat :=
  writeLine_negative_size_wraps (fun n => natDigits n) false [] (fun _ => .notExist)
    ⟨"n".data, -1, 0⟩ (by norm_num) (by norm_num)

/-! Path-argument resolution (`paths` from dufmt.go). -/

/-- `paths` from dufmt.go. External collaborators are explicit: `glob` is
`filepath.Glob` (on the patterns the code builds), `join2` is
`filepath.Join`, and `stat` is `os.Stat` — `none` when `Stat` fails, else
`some isDir`. With no arguments it globs `"*"`; with exactly one argument it
stats it, returning the stat error on failure and globbing
`Join(first, "*")` when it is a directory; in the remaining cases the
arguments are returned unchanged. -/
def goPaths (glob : GoStr → List GoStr) (join2 : GoStr → GoStr → GoStr)
    (stat : GoStr → Option Bool) (args : List GoStr) : Except GoStr (List GoStr) :=
  match args with
  | [] => .ok (glob "*".data)
  | [first] =>
    match stat first with
    | none => .error first
    | some isDir => if isDir then .ok (glob (join2 first "*".data)) else .ok [first]
  | _ => .ok args

/-- C9 (counterexample): with a single argument that does not exist on disk
(`os.Stat` fails), `paths` returns the stat error — the invocation fails —
rather than passing the argument through unchanged as the claim states. -/
theorem goPaths_single_missing_arg_fails :
    goPaths (fun _ => []) (fun a b => a ++ '/' :: b) (fun _ => none) ["nope".data] =
      .error "nope".data := rfl

/-- C9 (amended): with zero arguments the current directory is globbed; with
one argument naming a directory, that directory's entries are globbed; with
one argument naming an existing non-directory, or with two or more arguments
(never stat'ed), the arguments pass through unchanged; but with one argument
on which `os.Stat` fails the invocation fails with that error. -/
theorem goPaths_spec (glob : GoStr → List GoStr) (join2 : GoStr → GoStr → GoStr)
    (stat : GoStr → Option Bool) :
    goPaths glob join2 stat [] = .ok (glob "*".data) ∧
    (∀ first, stat first = none → goPaths glob join2 stat [first] = .error first) ∧
    (∀ first, stat first = some true →
      goPaths glob join2 stat [first] = .ok (glob (join2 first "*".data))) ∧
    (∀ first, stat first = some false → goPaths glob join2 stat [first] = .ok [first]) ∧
    (∀ a b rest, goPaths glob join2 stat (a :: b :: rest) = .ok (a :: b :: rest)) := by
  refine ⟨rfl, fun first h => ?_, fun first h => ?_, fun first h => ?_, fun a b rest => rfl⟩
  · simp [goPaths, h]
  · simp [goPaths, h]
  · simp [goPaths, h]

/-- C9 (witness): the amended behavior at concrete inputs — a directory
argument globbed, a plain-file argument passed through, two arguments passed
through unstat'ed. -/
theorem goPaths_spec_witness :
    goPaths (fun p => [p]) (fun a b => a ++ '/' :: b) (fun _ => some true) ["d".data] =
      .ok ["d/*".data] ∧
    goPaths (fun p => [p]) (fun a b => a ++ '/' :: b) (fun _ => some false) ["f".data] =
      .ok ["f".data] ∧
    goPaths (fun p => [p]) (fun a b => a ++ '/' :: b) (fun _ => none)
      ["a".data, "b".data] = .ok ["a".data, "b".data] :=
  ⟨((goPaths_spec (fun p => [p]) (fun a b => a ++ '/' :: b) (fun _ => some true)).2.2.1
      "d".data rfl).trans (by rfl),
   (goPaths_spec (fun p => [p]) (fun a b => a ++ '/' :: b) (fun _ => some false)).2.2.2.1
      "f".data rfl,
   (goPaths_spec (fun p => [p]) (fun a b => a ++ '/' :: b) (fun _ => none)).2.2.2.2
      "a".data "b".data []⟩

/-! The child counter (`count` from dufmt.go) over a model of the
filesystem tree walked by `filepath.Walk`. -/

/-- Model of a filesystem subtree as `filepath.Walk` observes it: a
non-directory entry, a readable directory with an ordered list of children,
an entry whose lstat fails, or a directory whose directory read fails (its
children are unreachable). -/
inductive FSNode where
  | file
  | dir (children : List FSNode)
  | statErr
  | dirReadErr
  deriving Repr

mutual

/-- `filepath.Walk` from the Go standard library, specialized to the walk
function of `count` in dufmt.go — which increments `n` on a nil error and
returns any non-nil error unchanged, which makes `Walk` abort at the first
error. Returns the number of `n`-incrementing visits in this subtree and
whether the walk aborted. An entry whose lstat fails contributes no count
and aborts; a directory whose read fails is counted (walkFn is first called
for it with a nil error) and then aborts. -/
def walkCount : FSNode → Nat × Bool
  | .file => (1, false)
  | .statErr => (0, true)
  | .dirReadErr => (1, true)
  | .dir cs =>
    let r := walkCountList cs
    (1 + r.1, r.2)

/-- The loop of `walk` over a directory's children: visit them in order,
stopping at the first child whose walk aborted. -/
def walkCountList : List FSNode → Nat × Bool
  | [] => (0, false)
  | t :: ts =>
    let r := walkCount t
    if r.2 then r
    else
      let r2 := walkCountList ts
      (r.1 + r2.1, r2.2)

end

/-- `count` from dufmt.go: the closure variable `n` after `filepath.Walk`
returns; the error, if any, is discarded (and nothing is logged). -/
def goCount (t : FSNode) : Nat := (walkCount t).1

mutual

/-- Preorder visit sequence of a subtree: `true` marks a visit that
increments the count, `false` the error event that aborts the Go walk. -/
def preorder : FSNode → List Bool
  | .file => [true]
  | .statErr => [false]
  | .dirReadErr => [true, false]
  | .dir cs => true :: preorderList cs

/-- Concatenated preorder sequences of a list of sibling subtrees. -/
def preorderList : List FSNode → List Bool
  | [] => []
  | t :: ts => preorder t ++ preorderList ts

end

mutual

/-- Modelled from the spec: the number of entries a best-effort walk can
visit — every entry whose lstat succeeds, in the whole subtree, skipping
only what is behind an unreadable directory. -/
def allVisitable : FSNode → Nat
  | .file => 1
  | .statErr => 0
  | .dirReadErr => 1
  | .dir cs => 1 + allVisitableList cs

/-- Sum of `allVisitable` over sibling subtrees. -/
def allVisitableList : List FSNode → Nat
  | [] => 0
  | t :: ts => allVisitable t + allVisitableList ts

end

theorem takeWhile_append_all {α : Type} {p : α → Bool} {l l2 : List α}
    (h : l.all p = true) : (l ++ l2).takeWhile p = l ++ l2.takeWhile p := by
  induction l with
  | nil => rfl
  | cons x xs ih =>
    simp only [List.all_cons, Bool.and_eq_true] at h
    simp [List.takeWhile_cons, h.1, ih h.2]

theorem takeWhile_append_not_all {α : Type} {p : α → Bool} {l l2 : List α}
    (h : l.all p = false) : (l ++ l2).takeWhile p = l.takeWhile p := by
  induction l with
  | nil => simp at h
  | cons x xs ih =>
    simp only [List.all_cons, Bool.and_eq_false_iff] at h
    rcases h with h | h
    · simp [List.takeWhile_cons, h]
    · cases hx : p x
      · simp [List.takeWhile_cons, hx]
      · simp [List.takeWhile_cons, hx, ih h]

theorem takeWhile_of_all {α : Type} {p : α → Bool} {l : List α}
    (h : l.all p = true) : l.takeWhile p = l := by
  induction l with
  | nil => rfl
  | cons x xs ih =>
    simp only [List.all_cons, Bool.and_eq_true] at h
    simp [List.takeWhile_cons, h.1, ih h.2]

mutual

/-- Characterization of the Go walk: the count is the length of the longest
error-free prefix of the preorder visit sequence, and the walk aborts
exactly when an error occurs anywhere in that sequence. -/
theorem walkCount_eq_visited : ∀ t : FSNode,
    walkCount t = (((preorder t).takeWhile (fun b => b)).length,
                   !(preorder t).all (fun b => b))
  | .file => rfl
  | .statErr => rfl
  | .dirReadErr => rfl
  | .dir cs => by
    simp [walkCount, preorder, walkCountList_eq_visited cs,
      List.takeWhile_cons, List.all_cons, Nat.add_comm]

/-- Characterization of the child loop of the Go walk, as for
`walkCount_eq_visited`. -/
theorem walkCountList_eq_visited : ∀ cs : List FSNode,
    walkCountList cs = (((preorderList cs).takeWhile (fun b => b)).length,
                        !(preorderList cs).all (fun b => b))
  | [] => rfl
  | t :: ts => by
    simp only [walkCountList, walkCount_eq_visited t, walkCountList_eq_visited ts,
      preorderList]
    cases hall : (preorder t).all (fun b => b) with
    | false =>
      simp [takeWhile_append_not_all hall, List.all_append, hall]
    | true =>
      simp [takeWhile_append_all hall, takeWhile_of_all hall, List.all_append, hall]

end

mutual

/-- The number of `true` entries of the preorder sequence is exactly the
best-effort visitable count. -/
theorem count_true_preorder : ∀ t : FSNode,
    (preorder t).count true = allVisitable t
  | .file => rfl
  | .statErr => rfl
  | .dirReadErr => rfl
  | .dir cs => by
    simp [preorder, allVisitable, count_true_preorderList cs, List.count_cons,
      Nat.add_comm]

/-- As `count_true_preorder`, for sibling lists. -/
theorem count_true_preorderList : ∀ cs : List FSNode,
    (preorderList cs).count true = allVisitableList cs
  | [] => rfl
  | t :: ts => by
    simp [preorderList, allVisitableList, List.count_append,
      count_true_preorder t, count_true_preorderList ts]

end

/-- C7 (counterexample): in the tree with an accessible root directory whose
first child's lstat fails and whose second child is a plain file, the Go
counter counts only the root (the walk aborts at the first error and the
second child is never visited), while a best-effort walk can visit two
entries — counting does not continue over entries that can still be
visited. -/
theorem goCount_stops_mid_walk :
    goCount (.dir [.statErr, .file]) = 1 ∧
    allVisitable (.dir [.statErr, .file]) = 2 := by
  constructor
  · simp [goCount, walkCount, walkCountList]
  · simp [allVisitable, allVisitableList]

/-- C7 (amended): the counter is not best-effort under partial failure: the
walk function returns the incoming error, so `filepath.Walk` aborts at the
first error and `count` returns the number of entries visited in preorder
before that error (the overall call still does not fail — the partial count
is returned and the error is discarded); when the walk cannot start at all
(the root's lstat fails) the count is 0; and when no error occurs anywhere
the count equals the full best-effort count. -/
theorem goCount_stops_at_first_error (t : FSNode) :
    goCount t = ((preorder t).takeWhile (fun b => b)).length ∧
    goCount .statErr = 0 ∧
    ((preorder t).all (fun b => b) = true → goCount t = allVisitable t) := by
  refine ⟨?_, rfl, fun hall => ?_⟩
  · unfold goCount
    rw [walkCount_eq_visited]
  · unfold goCount
    rw [walkCount_eq_visited]
    simp only [takeWhile_of_all hall]
    rw [← count_true_preorder t]
    have : ∀ l : List Bool, l.all (fun b => b) = true → l.count true = l.length := by
      intro l hl
      induction l with
      | nil => rfl
      | cons x xs ih =>
        simp only [List.all_cons, Bool.and_eq_true] at hl
        simp [List.count_cons, hl.1, ih hl.2]
    rw [this _ hall]

/-- C7 (witness): the amended theorem applied to the error-free tree with a
root directory holding a file and a subdirectory holding a file: all four
entries are counted. -/
theorem goCount_stops_at_first_error_witness :
    goCount (.dir [.file, .dir [.file]]) =
      ((preorder (.dir [.file, .dir [.file]])).takeWhile (fun b => b)).length ∧
    goCount .statErr = 0 ∧
    goCount (.dir [.file, .dir [.file]]) = allVisitable (.dir [.file, .dir [.file]]) :=
  ⟨(goCount_stops_at_first_error (.dir [.file, .dir [.file]])).1,
   (goCount_stops_at_first_error (.dir [.file, .dir [.file]])).2.1,
   (goCount_stops_at_first_error (.dir [.file, .dir [.file]])).2.2
     (by simp [preorder, preorderList])⟩

/-! The sort pipeline of dufmt.go: `sort.Sort(s)` on a `duSlice`, whose
`Less(i, j)` is `s[i].size < s[j].size`. `sort.Sort` is the Go standard
library's unstable quicksort (as implemented in Go 1.6 through 1.18):
`quickSort` with a gap-6 shell pass plus insertion sort on slices of at most
12 elements, median-of-three (of-nine above 40) pivoting with protection
against duplicates, and a heapsort fallback at depth limit `2*ceil(lg(n+1))`.
The slice is modelled as a function `Nat → α` updated by `swapF`; data-
dependent loops carry an explicit trip bound (`fuel`) chosen at each call
site to be at least the loop's iteration bound, so the recursion is
structural and the kernel can evaluate it. -/

/-- `data.Swap(i, j)` on a function-represented slice. -/
def swapF {α : Type} (f : Nat → α) (i j : Nat) : Nat → α :=
  fun k => if k = i then f j else if k = j then f i else f k

/-- The inner loop of `insertionSort`:
`for j := i; j > a && data.Less(j, j-1); j-- { data.Swap(j, j-1) }`. -/
def insInner {α : Type} (key : α → Int) (a : Nat) : Nat → (Nat → α) → (Nat → α)
  | 0, f => f
  | j+1, f =>
    if a < j + 1 ∧ key (f (j+1)) < key (f j) then insInner key a j (swapF f (j+1) j)
    else f

/-- The outer loop of `insertionSort`, `for i := a+1; i < b; i++`, with the
remaining trip count `b - i` made explicit. -/
def insOuter {α : Type} (key : α → Int) (a : Nat) : Nat → Nat → (Nat → α) → (Nat → α)
  | 0, _, f => f
  | steps+1, i, f => insOuter key a steps (i+1) (insInner key a i f)

/-- `insertionSort(data, a, b)` from Go's sort package. -/
def insertionSortF {α : Type} (key : α → Int) (f : Nat → α) (a b : Nat) : Nat → α :=
  insOuter key a (b - (a+1)) (a+1) f

/-- The gap-6 shell pass `quickSort` runs on slices of at most 12 elements:
`for i := a+6; i < b; i++ { if data.Less(i, i-6) { data.Swap(i, i-6) } }`,
with the trip count `b - i` explicit. -/
def shellGo {α : Type} (key : α → Int) : Nat → Nat → (Nat → α) → (Nat → α)
  | 0, _, f => f
  | steps+1, i, f =>
    shellGo key steps (i+1) (if key (f i) < key (f (i-6)) then swapF f i (i-6) else f)

/-- `siftDown(data, lo, hi, first)` from Go's sort package, with `root`
starting at `lo`; `fuel` bounds the iterations (`root` strictly increases
and stays below `hi`, so any `fuel ≥ hi` is exact). -/
def siftDownGo {α : Type} (key : α → Int) (first hi : Nat) : Nat → Nat → (Nat → α) → (Nat → α)
  | 0, _, f => f
  | fuel+1, root, f =>
    let child := 2*root + 1
    if child < hi then
      let child2 :=
        if child + 1 < hi ∧ key (f (first+child)) < key (f (first+child+1)) then child + 1
        else child
      if key (f (first+root)) < key (f (first+child2)) then
        siftDownGo key first hi fuel child2 (swapF f (first+root) (first+child2))
      else f
    else f

/-- The heap-building loop of `heapSort`:
`for i := (hi-1)/2; i >= 0; i-- { siftDown(data, i, hi, first) }`, iterated
by the count of remaining values of `i` plus one. -/
def heapBuild {α : Type} (key : α → Int) (first hi : Nat) : Nat → (Nat → α) → (Nat → α)
  | 0, f => f
  | n+1, f => heapBuild key first hi n (siftDownGo key first hi hi n f)

/-- The pop loop of `heapSort`:
`for i := hi-1; i >= 0; i-- { data.Swap(first, first+i); siftDown(data, lo, i, first) }`. -/
def heapPop {α : Type} (key : α → Int) (first : Nat) : Nat → (Nat → α) → (Nat → α)
  | 0, f => f
  | n+1, f => heapPop key first n (siftDownGo key first n n 0 (swapF f first (first + n)))

/-- `heapSort(data, a, b)` from Go's sort package. -/
def heapSortF {α : Type} (key : α → Int) (f : Nat → α) (a b : Nat) : Nat → α :=
  heapPop key a (b - a) (heapBuild key a (b - a) (((b - a) - 1) / 2 + 1) f)

/-- `medianOfThree(data, m1, m0, m2)`: after it, `data[m0] <= data[m1] <= data[m2]`. -/
def medianOfThree {α : Type} (key : α → Int) (f : Nat → α) (m1 m0 m2 : Nat) : Nat → α :=
  let g := if key (f m1) < key (f m0) then swapF f m1 m0 else f
  if key (g m2) < key (g m1) then
    let g2 := swapF g m2 m1
    if key (g2 m1) < key (g2 m0) then swapF g2 m1 m0 else g2
  else g

/-- The first scan of `doPivot`:
`for ; a < c && data.Less(a, pivot); a++`, returning the final `a`. -/
def dpLoop1 {α : Type} (key : α → Int) (p c : Nat) : Nat → Nat → (Nat → α) → Nat
  | 0, a, _ => a
  | fuel+1, a, f =>
    if a < c ∧ key (f a) < key (f p) then dpLoop1 key p c fuel (a+1) f else a

/-- The forward scan of `doPivot`'s partition loop:
`for ; b < c && !data.Less(pivot, b); b++`. -/
def dpScanB {α : Type} (key : α → Int) (p c : Nat) : Nat → Nat → (Nat → α) → Nat
  | 0, b, _ => b
  | fuel+1, b, f =>
    if b < c ∧ ¬key (f p) < key (f b) then dpScanB key p c fuel (b+1) f else b

/-- The backward scan of `doPivot`'s partition loop:
`for ; b < c && data.Less(pivot, c-1); c--`, structural in `c`. -/
def dpScanC {α : Type} (key : α → Int) (p b : Nat) : Nat → (Nat → α) → Nat
  | 0, _ => 0
  | c+1, f =>
    if b < c + 1 ∧ key (f p) < key (f c) then dpScanC key p b c f else c + 1

/-- The partition loop of `doPivot`: scan `b` forward, `c` backward, stop
when they meet, else `data.Swap(b, c-1); b++; c--`. Each iteration strictly
decreases `c`, so any `fuel` exceeding the initial `c` is exact. -/
def dpMainLoop {α : Type} (key : α → Int) (p : Nat) : Nat → Nat → Nat → (Nat → α) →
    Nat × Nat × (Nat → α)
  | 0, b, c, f => (b, c, f)
  | fuel+1, b, c, f =>
    let b1 := dpScanB key p c c b f
    let c1 := dpScanC key p b1 c f
    if b1 ≥ c1 then (b1, c1, f)
    else dpMainLoop key p fuel (b1+1) (c1-1) (swapF f b1 (c1-1))

/-- The backward scan of `doPivot`'s duplicate-protection loop:
`for ; a < b && !data.Less(b-1, pivot); b--`, structural in `b`. -/
def dpProtScanB {α : Type} (key : α → Int) (p a : Nat) : Nat → (Nat → α) → Nat
  | 0, _ => 0
  | b+1, f =>
    if a < b + 1 ∧ ¬key (f b) < key (f p) then dpProtScanB key p a b f else b + 1

/-- The forward scan of `doPivot`'s duplicate-protection loop:
`for ; a < b && data.Less(a, pivot); a++`. -/
def dpProtScanA {α : Type} (key : α → Int) (p b : Nat) : Nat → Nat → (Nat → α) → Nat
  | 0, a, _ => a
  | fuel+1, a, f =>
    if a < b ∧ key (f a) < key (f p) then dpProtScanA key p b fuel (a+1) f else a

/-- The duplicate-protection loop of `doPivot`: move entries equal to the
pivot to the middle; stop when `a` meets `b`, else
`data.Swap(a, b-1); a++; b--`. Each iteration strictly decreases `b`. -/
def dpProtLoop {α : Type} (key : α → Int) (p : Nat) : Nat → Nat → Nat → (Nat → α) →
    Nat × Nat × (Nat → α)
  | 0, a, b, f => (a, b, f)
  | fuel+1, a, b, f =>
    let b1 := dpProtScanB key p a b f
    let a1 := dpProtScanA key p b1 b1 a f
    if a1 ≥ b1 then (a1, b1, f)
    else dpProtLoop key p fuel (a1+1) (b1-1) (swapF f a1 (b1-1))

/-- The pivot-selection phase of `doPivot`: Tukey's ninther when more than
40 elements, then `medianOfThree(data, lo, m, hi-1)` — after which
`data[lo]` is the pivot. -/
def dpMedians {α : Type} (key : α → Int) (f0 : Nat → α) (lo hi : Nat) : Nat → α :=
  let m := (lo + hi) / 2
  let f1 :=
    if hi - lo > 40 then
      let s := (hi - lo) / 8
      medianOfThree key
        (medianOfThree key (medianOfThree key f0 lo (lo+s) (lo+2*s)) m (m-s) (m+s))
        (hi-1) (hi-1-s) (hi-1-2*s)
    else f0
  medianOfThree key f1 lo m (hi-1)

/-- Third duplicate test of `doPivot`:
`if !data.Less(m, pivot) { data.Swap(m, b-1); b--; dups++ }`, then
`protect = dups > 1`. -/
def dpDupsTest3 {α : Type} (key : α → Int) (lo m b3 c2 : Nat) (f4 : Nat → α) (d2 : Nat) :
    Bool × Nat × Nat × (Nat → α) :=
  if ¬key (f4 m) < key (f4 lo) then (decide (d2 + 1 > 1), b3 - 1, c2, swapF f4 m (b3 - 1))
  else (decide (d2 > 1), b3, c2, f4)

/-- Second duplicate test of `doPivot`:
`if !data.Less(b-1, pivot) { b--; dups++ }`. -/
def dpDupsTest2 {α : Type} (key : α → Int) (lo m b1 c2 : Nat) (f4 : Nat → α) (d1 : Nat) :
    Bool × Nat × Nat × (Nat → α) :=
  if ¬key (f4 (b1 - 1)) < key (f4 lo) then dpDupsTest3 key lo m (b1 - 1) c2 f4 (d1 + 1)
  else dpDupsTest3 key lo m b1 c2 f4 d1

/-- First duplicate test of `doPivot`:
`if !data.Less(pivot, hi-1) { data.Swap(c, hi-1); c++; dups++ }`. -/
def dpDupsTests {α : Type} (key : α → Int) (lo hi m b1 c1 : Nat) (f3 : Nat → α) :
    Bool × Nat × Nat × (Nat → α) :=
  if ¬key (f3 lo) < key (f3 (hi - 1)) then
    dpDupsTest2 key lo m b1 (c1 + 1) (swapF f3 c1 (hi - 1)) 1
  else dpDupsTest2 key lo m b1 c1 f3 0

/-- The duplicate-testing phase of `doPivot`: decide whether to protect
against duplicates, possibly moving a few pivot-equal entries; returns
`(protect, b, c, data)`. -/
def dpDups {α : Type} (key : α → Int) (lo hi m b1 c1 : Nat) (f3 : Nat → α) :
    Bool × Nat × Nat × (Nat → α) :=
  if hi - c1 < 5 then (true, b1, c1, f3)
  else if hi - c1 < (hi - lo) / 4 then dpDupsTests key lo hi m b1 c1 f3
  else (false, b1, c1, f3)

/-- The final phase of `doPivot`: run the protection loop when requested,
then `data.Swap(pivot, b-1); return b-1, c`. -/
def dpFinish {α : Type} (key : α → Int) (lo a0 : Nat) (t : Bool × Nat × Nat × (Nat → α)) :
    Nat × Nat × (Nat → α) :=
  let r2 : Nat × (Nat → α) :=
    if t.1 then
      let pr := dpProtLoop key lo (t.2.1+1) a0 t.2.1 t.2.2.2
      (pr.2.1, pr.2.2)
    else (t.2.1, t.2.2.2)
  (r2.1 - 1, t.2.2.1, swapF r2.2 lo (r2.1 - 1))

/-- `doPivot(data, lo, hi)` from Go's sort package (Go 1.6-1.18): median
pivoting, the first scan, the partition loop, the duplicate tests and the
protection loop, ending with `data.Swap(pivot, b-1); return b-1, c`. -/
def doPivotF {α : Type} (key : α → Int) (f0 : Nat → α) (lo hi : Nat) :
    Nat × Nat × (Nat → α) :=
  let f2 := dpMedians key f0 lo hi
  let a0 := dpLoop1 key lo (hi-1) (hi-1) (lo+1) f2
  let r := dpMainLoop key lo hi a0 (hi-1) f2
  dpFinish key lo a0 (dpDups key lo hi ((lo + hi) / 2) r.1 r.2.1 r.2.2)

/-- `quickSort(data, a, b, maxDepth)` from Go's sort package: partition and
recurse while more than 12 elements remain — switching to `heapSort` when
the depth budget is exhausted — and finish small slices with the gap-6
shell pass followed by `insertionSort`. The loop's `maxDepth--` makes the
recursion structural in the depth budget. -/
def quickSortF {α : Type} (key : α → Int) : Nat → (Nat → α) → Nat → Nat → (Nat → α)
  | depth, f, a, b =>
    if b - a > 12 then
      match depth with
      | 0 => heapSortF key f a b
      | d+1 =>
        let r := doPivotF key f a b
        let mlo := r.1
        let mhi := r.2.1
        let f1 := r.2.2
        if mlo - a < b - mhi then
          quickSortF key d (quickSortF key d f1 a mlo) mhi b
        else
          quickSortF key d (quickSortF key d f1 mhi b) a mlo
    else
      if b - a > 1 then insertionSortF key (shellGo key (b - (a+6)) (a+6) f) a b
      else f

/-- `maxDepth(n)` from Go's sort package: `2 * ceil(lg(n+1))`, computed by
the halving loop `for i := n; i > 0; i >>= 1 { depth++ }`; the halving count
is bounded by `n` itself, which serves as the structural fuel. -/
def bitLenGo : Nat → Nat → Nat
  | 0, _ => 0
  | fuel+1, n => if n = 0 then 0 else bitLenGo fuel (n / 2) + 1

/-- `maxDepth(n) = 2 * bitLen(n)`. -/
def maxDepthGo (n : Nat) : Nat := 2 * bitLenGo n n

/-- `sort.Sort` (Go 1.6-1.18): `quickSort(data, 0, n, maxDepth(n))`. -/
def goSortF {α : Type} (key : α → Int) (f : Nat → α) (n : Nat) : Nat → α :=
  quickSortF key (maxDepthGo n) f 0 n

instance : Inhabited duInfo := ⟨⟨[], 0, 0⟩⟩

/-- The `Less` key of `duSlice`: `Less(i, j)` is `s[i].size < s[j].size`. -/
def duKey (x : duInfo) : Int := x.size

/-- `sort.Sort` applied to a `duSlice`, read back as a list. -/
def sortDu (s : List duInfo) : List duInfo :=
  (List.range s.length).map (goSortF duKey (fun i => s.getD i default) s.length)

/-- Two's-complement wrap of an integer into the signed 64-bit range, as a
Go `int` addition overflows on a 64-bit platform. -/
def wrap64 (x : Int) : Int := (x + 2 ^ 63) % 2 ^ 64 - 2 ^ 63

/-- `total` from dufmt.go: `for _, x := range s { total += x.size }` — the
sizes accumulated into a 64-bit Go `int`, each addition wrapping on
overflow. -/
def sumSizes (s : List duInfo) : Int :=
  s.foldl (fun acc x => wrap64 (acc + x.size)) 0

/-- The record sequence `main` renders: the parsed records sorted by
`sort.Sort`, then one appended total record (`name = "total"`, size =
`total(s)` computed on the sorted slice, zero-valued child count). -/
def renderRecords (s : List duInfo) : List duInfo :=
  let sorted := sortDu s
  sorted ++ [⟨"total".data, sumSizes sorted, 0⟩]

example : sortDu [⟨"a".data, 5, 0⟩, ⟨"b".data, 3, 0⟩, ⟨"c".data, 4, 0⟩] =
    [⟨"b".data, 3, 0⟩, ⟨"c".data, 4, 0⟩, ⟨"a".data, 5, 0⟩] := by decide

example : sortDu [⟨"a".data, 2, 0⟩, ⟨"b".data, 2, 0⟩, ⟨"c".data, 1, 0⟩] =
    [⟨"c".data, 1, 0⟩, ⟨"a".data, 2, 0⟩, ⟨"b".data, 2, 0⟩] := by decide

/-- C2 (counterexample): `sort.Sort` is not stable. On the seven-record
report with sizes `5, 5, 1, 2, 3, 4, 0` (names `a..g`), the gap-6 shell
pass swaps positions 6 and 0 — carrying record `a` (size 5, first in input)
behind record `b` (size 5, second in input) — and the subsequent insertion
sort never reorders equal-size records, so the rendered non-total sequence
has `b` before `a`: two records of equal size are rendered in the reverse
of their input order (the sizes are nevertheless in ascending order). -/
theorem sortDu_not_stable :
    sortDu [⟨"a".data, 5, 0⟩, ⟨"b".data, 5, 0⟩, ⟨"c".data, 1, 0⟩, ⟨"d".data, 2, 0⟩,
            ⟨"e".data, 3, 0⟩, ⟨"f".data, 4, 0⟩, ⟨"g".data, 0, 0⟩] =
      [⟨"g".data, 0, 0⟩, ⟨"c".data, 1, 0⟩, ⟨"d".data, 2, 0⟩, ⟨"e".data, 3, 0⟩,
       ⟨"f".data, 4, 0⟩, ⟨"b".data, 5, 0⟩, ⟨"a".data, 5, 0⟩] ∧
    (renderRecords [⟨"a".data, 5, 0⟩, ⟨"b".data, 5, 0⟩, ⟨"c".data, 1, 0⟩, ⟨"d".data, 2, 0⟩,
            ⟨"e".data, 3, 0⟩, ⟨"f".data, 4, 0⟩, ⟨"g".data, 0, 0⟩]).dropLast =
      [⟨"g".data, 0, 0⟩, ⟨"c".data, 1, 0⟩, ⟨"d".data, 2, 0⟩, ⟨"e".data, 3, 0⟩,
       ⟨"f".data, 4, 0⟩, ⟨"b".data, 5, 0⟩, ⟨"a".data, 5, 0⟩] := by decide

/-! Permutation reasoning: every mutation the sort performs is a swap, so
each phase's result is the input composed with a permutation supported below
the slice bound. -/

/-- `g` is `f` composed with a permutation whose support lies below `hi`. -/
def PermBelow {α : Type} (hi : Nat) (f g : Nat → α) : Prop :=
  ∃ π : Equiv.Perm Nat, (∀ k, π k ≠ k → k < hi) ∧ ∀ k, g k = f (π k)

theorem pb_refl {α : Type} (hi : Nat) (f : Nat → α) : PermBelow hi f f :=
  ⟨Equiv.refl Nat, by simp, by simp⟩

theorem pb_trans {α : Type} {hi : Nat} {f g h : Nat → α}
    (h1 : PermBelow hi f g) (h2 : PermBelow hi g h) : PermBelow hi f h := by
  obtain ⟨p1, s1, e1⟩ := h1
  obtain ⟨p2, s2, e2⟩ := h2
  refine ⟨p2.trans p1, fun k hk => ?_, fun k => ?_⟩
  · by_cases hp2 : p2 k = k
    · exact s1 k (by simpa [Equiv.trans_apply, hp2] using hk)
    · exact s2 k hp2
  · rw [e2, e1, Equiv.trans_apply]

theorem pb_mono {α : Type} {hi hi' : Nat} {f g : Nat → α}
    (hle : hi ≤ hi') (h : PermBelow hi f g) : PermBelow hi' f g := by
  obtain ⟨p, s, e⟩ := h
  exact ⟨p, fun k hk => lt_of_lt_of_le (s k hk) hle, e⟩

theorem pb_swapF {α : Type} {hi i j : Nat} (f : Nat → α) (hi1 : i < hi) (hj : j < hi) :
    PermBelow hi f (swapF f i j) := by
  refine ⟨Equiv.swap i j, fun k hk => ?_, fun k => ?_⟩
  · by_cases hki : k = i
    · exact hki ▸ hi1
    · by_cases hkj : k = j
      · exact hkj ▸ hj
      · exact absurd (Equiv.swap_apply_of_ne_of_ne hki hkj) hk
  · simp only [swapF, Equiv.swap_apply_def]
    split_ifs <;> rfl

theorem pb_ite_swapF {α : Type} {hi i j : Nat} (c : Prop) [Decidable c] (f : Nat → α)
    (hi1 : i < hi) (hj : j < hi) :
    PermBelow hi f (if c then swapF f i j else f) := by
  split_ifs
  · exact pb_swapF f hi1 hj
  · exact pb_refl hi f

/-- `g` is `f` composed with a permutation supported inside `[lo, hi)`. -/
def PermSeg {α : Type} (lo hi : Nat) (f g : Nat → α) : Prop :=
  ∃ π : Equiv.Perm Nat, (∀ k, π k ≠ k → lo ≤ k ∧ k < hi) ∧ ∀ k, g k = f (π k)

theorem ps_refl {α : Type} (lo hi : Nat) (f : Nat → α) : PermSeg lo hi f f :=
  ⟨Equiv.refl Nat, by simp, by simp⟩

theorem ps_trans {α : Type} {lo hi : Nat} {f g h : Nat → α}
    (h1 : PermSeg lo hi f g) (h2 : PermSeg lo hi g h) : PermSeg lo hi f h := by
  obtain ⟨p1, s1, e1⟩ := h1
  obtain ⟨p2, s2, e2⟩ := h2
  refine ⟨p2.trans p1, fun k hk => ?_, fun k => ?_⟩
  · by_cases hp2 : p2 k = k
    · exact s1 k (by simpa [Equiv.trans_apply, hp2] using hk)
    · exact s2 k hp2
  · rw [e2, e1, Equiv.trans_apply]

theorem ps_mono {α : Type} {lo lo' hi hi' : Nat} {f g : Nat → α}
    (h1 : lo' ≤ lo) (h2 : hi ≤ hi') (h : PermSeg lo hi f g) : PermSeg lo' hi' f g := by
  obtain ⟨p, s, e⟩ := h
  exact ⟨p, fun k hk => ⟨le_trans h1 (s k hk).1, lt_of_lt_of_le (s k hk).2 h2⟩, e⟩

theorem ps_swapF {α : Type} {lo hi i j : Nat} (f : Nat → α)
    (hli : lo ≤ i) (hri : i < hi) (hlj : lo ≤ j) (hrj : j < hi) :
    PermSeg lo hi f (swapF f i j) := by
  refine ⟨Equiv.swap i j, fun k hk => ?_, fun k => ?_⟩
  · by_cases hki : k = i
    · exact hki ▸ ⟨hli, hri⟩
    · by_cases hkj : k = j
      · exact hkj ▸ ⟨hlj, hrj⟩
      · exact absurd (Equiv.swap_apply_of_ne_of_ne hki hkj) hk
  · simp only [swapF, Equiv.swap_apply_def]
    split_ifs <;> rfl

theorem ps_to_pb {α : Type} {lo hi : Nat} {f g : Nat → α} (h : PermSeg lo hi f g) :
    PermBelow hi f g := by
  obtain ⟨p, s, e⟩ := h
  exact ⟨p, fun k hk => (s k hk).2, e⟩

theorem ps_eq_outside {α : Type} {lo hi : Nat} {f g : Nat → α} (h : PermSeg lo hi f g) :
    ∀ k, k < lo ∨ hi ≤ k → g k = f k := by
  obtain ⟨p, s, e⟩ := h
  intro k hk
  rw [e k]
  by_cases hp : p k = k
  · rw [hp]
  · rcases hk with hk | hk
    · exact absurd (s k hp).1 (by omega)
    · exact absurd (s k hp).2 (by omega)

theorem ps_index {α : Type} {lo hi : Nat} {f g : Nat → α} (h : PermSeg lo hi f g) :
    ∀ j, lo ≤ j → j < hi → ∃ i, lo ≤ i ∧ i < hi ∧ g j = f i := by
  obtain ⟨p, s, e⟩ := h
  intro j hj1 hj2
  by_cases hp : p j = j
  · exact ⟨j, hj1, hj2, by rw [e j, hp]⟩
  · have hne : p (p j) ≠ p j := fun hh => hp (p.injective hh)
    exact ⟨p j, (s (p j) hne).1, (s (p j) hne).2, e j⟩

theorem insInner_ps {α : Type} (key : α → Int) (a : Nat) :
    ∀ (j : Nat) (f : Nat → α), PermSeg a (j+1) f (insInner key a j f) := by
  intro j
  induction j with
  | zero => intro f; exact ps_refl _ _ f
  | succ j ih =>
    intro f
    rw [insInner]
    split_ifs with h
    · exact ps_trans (ps_swapF f (by omega) (by omega) (by omega) (by omega))
        (ps_mono (le_refl a) (by omega) (ih _))
    · exact ps_refl _ _ f

theorem insOuter_ps {α : Type} (key : α → Int) (a : Nat) :
    ∀ (steps i : Nat) (f : Nat → α), PermSeg a (i + steps) f (insOuter key a steps i f) := by
  intro steps
  induction steps with
  | zero => intro i f; exact ps_refl _ _ f
  | succ steps ih =>
    intro i f
    rw [insOuter]
    have h1 : PermSeg a (i + (steps+1)) f (insInner key a i f) :=
      ps_mono (le_refl a) (by omega) (insInner_ps key a i f)
    have h2 : PermSeg a (i + (steps+1)) (insInner key a i f)
        (insOuter key a steps (i+1) (insInner key a i f)) :=
      ps_mono (le_refl a) (by omega) (ih (i+1) _)
    exact ps_trans h1 h2

theorem insertionSortF_ps {α : Type} (key : α → Int) (f : Nat → α) (a b : Nat)
    (hab : a < b) : PermSeg a b f (insertionSortF key f a b) := by
  have h := insOuter_ps key a (b - (a+1)) (a+1) f
  exact ps_mono (le_refl a) (by omega) h

theorem shellGo_ps {α : Type} (key : α → Int) (lo : Nat) :
    ∀ (steps i : Nat) (f : Nat → α), lo + 6 ≤ i →
      PermSeg lo (i + steps) f (shellGo key steps i f) := by
  intro steps
  induction steps with
  | zero => intro i f hi6; exact ps_refl _ _ f
  | succ steps ih =>
    intro i f hi6
    rw [shellGo]
    have h1 : PermSeg lo (i + (steps+1)) f
        (if key (f i) < key (f (i-6)) then swapF f i (i-6) else f) := by
      split_ifs
      · exact ps_swapF f (by omega) (by omega) (by omega) (by omega)
      · exact ps_refl _ _ f
    have h2 : PermSeg lo (i + (steps+1))
        (if key (f i) < key (f (i-6)) then swapF f i (i-6) else f)
        (shellGo key steps (i+1) (if key (f i) < key (f (i-6)) then swapF f i (i-6) else f)) :=
      ps_mono (le_refl lo) (by omega) (ih (i+1) _ (by omega))
    exact ps_trans h1 h2

theorem siftDownGo_ps {α : Type} (key : α → Int) (first hi : Nat) :
    ∀ (fuel root : Nat) (f : Nat → α), PermSeg first (first + hi) f (siftDownGo key first hi fuel root f) := by
  intro fuel
  induction fuel with
  | zero => intro root f; exact ps_refl _ _ f
  | succ fuel ih =>
    intro root f
    rw [siftDownGo]
    simp only []
    split_ifs with h1 h2 h3 h4 <;>
      first
      | exact ps_refl _ _ f
      | exact ps_trans (ps_swapF f (by omega) (by omega) (by omega) (by omega)) (ih _ _)

theorem heapBuild_ps {α : Type} (key : α → Int) (first hi : Nat) :
    ∀ (n : Nat) (f : Nat → α), PermSeg first (first + hi) f (heapBuild key first hi n f) := by
  intro n
  induction n with
  | zero => intro f; exact ps_refl _ _ f
  | succ n ih =>
    intro f
    rw [heapBuild]
    exact ps_trans (siftDownGo_ps key first hi hi n f) (ih _)

theorem heapPop_ps {α : Type} (key : α → Int) (first : Nat) :
    ∀ (n : Nat) (f : Nat → α), PermSeg first (first + n) f (heapPop key first n f) := by
  intro n
  induction n with
  | zero => intro f; exact ps_refl _ _ f
  | succ n ih =>
    intro f
    rw [heapPop]
    have h1 : PermSeg first (first + (n+1)) f (swapF f first (first + n)) :=
      ps_swapF f (by omega) (by omega) (by omega) (by omega)
    have h2 : PermSeg first (first + (n+1)) (swapF f first (first + n))
        (siftDownGo key first n n 0 (swapF f first (first + n))) :=
      ps_mono (le_refl first) (by omega) (siftDownGo_ps key first n n 0 _)
    have h3 : PermSeg first (first + (n+1))
        (siftDownGo key first n n 0 (swapF f first (first + n)))
        (heapPop key first n (siftDownGo key first n n 0 (swapF f first (first + n)))) :=
      ps_mono (le_refl first) (by omega) (ih _)
    exact ps_trans h1 (ps_trans h2 h3)

theorem heapSortF_ps {α : Type} (key : α → Int) (f : Nat → α) (a b : Nat)
    (hab : a ≤ b) : PermSeg a b f (heapSortF key f a b) := by
  unfold heapSortF
  have h1 : PermSeg a b f (heapBuild key a (b - a) (((b - a) - 1) / 2 + 1) f) :=
    ps_mono (le_refl a) (by omega) (heapBuild_ps key a (b - a) (((b - a) - 1) / 2 + 1) f)
  have h2 : PermSeg a b (heapBuild key a (b - a) (((b - a) - 1) / 2 + 1) f)
      (heapPop key a (b - a) (heapBuild key a (b - a) (((b - a) - 1) / 2 + 1) f)) :=
    ps_mono (le_refl a) (by omega) (heapPop_ps key a (b - a) (heapBuild key a (b - a) (((b - a) - 1) / 2 + 1) f))
  exact ps_trans h1 h2

theorem medianOfThree_ps {α : Type} (key : α → Int) (f : Nat → α) {lo hi m1 m0 m2 : Nat}
    (h1 : lo ≤ m1 ∧ m1 < hi) (h0 : lo ≤ m0 ∧ m0 < hi) (h2 : lo ≤ m2 ∧ m2 < hi) :
    PermSeg lo hi f (medianOfThree key f m1 m0 m2) := by
  obtain ⟨h1l, h1r⟩ := h1
  obtain ⟨h0l, h0r⟩ := h0
  obtain ⟨h2l, h2r⟩ := h2
  unfold medianOfThree
  dsimp only
  split_ifs <;>
    first
    | exact ps_refl _ _ _
    | exact ps_swapF _ (by omega) (by omega) (by omega) (by omega)
    | exact ps_trans (ps_swapF _ (by omega) (by omega) (by omega) (by omega))
        (ps_swapF _ (by omega) (by omega) (by omega) (by omega))
    | exact ps_trans (ps_swapF _ (by omega) (by omega) (by omega) (by omega))
        (ps_trans (ps_swapF _ (by omega) (by omega) (by omega) (by omega))
          (ps_swapF _ (by omega) (by omega) (by omega) (by omega)))

theorem dpScanC_le {α : Type} (key : α → Int) (p b : Nat) :
    ∀ (c : Nat) (f : Nat → α), dpScanC key p b c f ≤ c := by
  intro c
  induction c with
  | zero => intro f; exact Nat.le_refl 0
  | succ c ih =>
    intro f
    rw [dpScanC]
    split_ifs
    · exact le_trans (ih f) (by omega)
    · exact le_refl _

theorem dpScanB_le_max {α : Type} (key : α → Int) (p c : Nat) :
    ∀ (fuel b : Nat) (f : Nat → α), dpScanB key p c fuel b f ≤ max b c := by
  intro fuel
  induction fuel with
  | zero => intro b f; exact le_max_left b c
  | succ fuel ih =>
    intro b f
    rw [dpScanB]
    split_ifs with h
    · exact le_trans (ih (b+1) f) (by omega)
    · omega

theorem dpLoop1_le_max {α : Type} (key : α → Int) (p c : Nat) :
    ∀ (fuel a : Nat) (f : Nat → α), dpLoop1 key p c fuel a f ≤ max a c := by
  intro fuel
  induction fuel with
  | zero => intro a f; exact le_max_left a c
  | succ fuel ih =>
    intro a f
    rw [dpLoop1]
    split_ifs with h
    · exact le_trans (ih (a+1) f) (by omega)
    · omega

theorem dpProtScanB_le {α : Type} (key : α → Int) (p a : Nat) :
    ∀ (b : Nat) (f : Nat → α), dpProtScanB key p a b f ≤ b := by
  intro b
  induction b with
  | zero => intro f; exact Nat.le_refl 0
  | succ b ih =>
    intro f
    rw [dpProtScanB]
    split_ifs
    · exact le_trans (ih f) (by omega)
    · exact le_refl _

theorem dpScanB_ge {α : Type} (key : α → Int) (p c : Nat) :
    ∀ (fuel b : Nat) (f : Nat → α), b ≤ dpScanB key p c fuel b f := by
  intro fuel
  induction fuel with
  | zero => intro b f; exact Nat.le_refl b
  | succ fuel ih =>
    intro b f
    rw [dpScanB]
    split_ifs with h
    · exact le_trans (by omega) (ih (b+1) f)
    · exact Nat.le_refl b

theorem dpScanB_stop {α : Type} (key : α → Int) (p c : Nat) :
    ∀ (fuel b : Nat) (f : Nat → α), c ≤ b + fuel →
      dpScanB key p c fuel b f < c → key (f p) < key (f (dpScanB key p c fuel b f)) := by
  intro fuel
  induction fuel with
  | zero =>
    intro b f hfuel hlt
    rw [dpScanB] at hlt ⊢
    omega
  | succ fuel ih =>
    intro b f hfuel hlt
    rw [dpScanB] at hlt ⊢
    by_cases h : b < c ∧ ¬key (f p) < key (f b)
    · rw [if_pos h] at hlt ⊢
      exact ih (b+1) f (by omega) hlt
    · rw [if_neg h] at hlt ⊢
      push_neg at h
      exact h hlt

theorem dpScanC_ge {α : Type} (key : α → Int) (p b : Nat) :
    ∀ (c : Nat) (f : Nat → α), b ≤ c → b ≤ dpScanC key p b c f := by
  intro c
  induction c with
  | zero => intro f hb; exact hb
  | succ c ih =>
    intro f hb
    rw [dpScanC]
    split_ifs with h
    · exact ih f (by omega)
    · exact hb

theorem dpScanC_stop {α : Type} (key : α → Int) (p b : Nat) :
    ∀ (c : Nat) (f : Nat → α), b < dpScanC key p b c f →
      ¬key (f p) < key (f (dpScanC key p b c f - 1)) := by
  intro c
  induction c with
  | zero =>
    intro f hlt
    rw [dpScanC] at hlt
    omega
  | succ c ih =>
    intro f hlt
    rw [dpScanC] at hlt ⊢
    by_cases h : b < c + 1 ∧ key (f p) < key (f c)
    · rw [if_pos h] at hlt ⊢
      exact ih f hlt
    · rw [if_neg h] at hlt ⊢
      push_neg at h
      simpa using h hlt

theorem dpMainLoop_fst_le {α : Type} (key : α → Int) (p : Nat) :
    ∀ (fuel b c : Nat) (f : Nat → α), (dpMainLoop key p fuel b c f).1 ≤ max b c := by
  intro fuel
  induction fuel with
  | zero => intro b c f; exact le_max_left b c
  | succ fuel ih =>
    intro b c f
    rw [dpMainLoop]
    split_ifs with h
    · exact le_trans (dpScanB_le_max key p c c b f) (by omega)
    · push_neg at h
      have hb1 := dpScanB_le_max key p c c b f
      have hc1 := dpScanC_le key p (dpScanB key p c c b f) c f
      refine le_trans (ih _ _ _) ?_
      omega

theorem dpMainLoop_c_le {α : Type} (key : α → Int) (p : Nat) :
    ∀ (fuel b c : Nat) (f : Nat → α), (dpMainLoop key p fuel b c f).2.1 ≤ c := by
  intro fuel
  induction fuel with
  | zero => intro b c f; exact Nat.le_refl c
  | succ fuel ih =>
    intro b c f
    rw [dpMainLoop]
    split_ifs with h
    · exact dpScanC_le key p _ c f
    · have hc1 := dpScanC_le key p (dpScanB key p c c b f) c f
      refine le_trans (ih _ _ _) (by omega)

theorem dpMainLoop_ps {α : Type} (key : α → Int) (p : Nat) {lo hi : Nat} :
    ∀ (fuel b c : Nat) (f : Nat → α), lo ≤ b → c ≤ hi →
      PermSeg lo hi f (dpMainLoop key p fuel b c f).2.2 := by
  intro fuel
  induction fuel with
  | zero => intro b c f hlo hc; exact ps_refl _ _ f
  | succ fuel ih =>
    intro b c f hlo hc
    rw [dpMainLoop]
    split_ifs with h
    · exact ps_refl _ _ f
    · push_neg at h
      have hb1 := dpScanB_ge key p c c b f
      have hc1 := dpScanC_le key p (dpScanB key p c c b f) c f
      refine ps_trans (ps_swapF f ?_ ?_ ?_ ?_) (ih _ _ _ ?_ ?_) <;> omega

theorem dpMainLoop_b_ge {α : Type} (key : α → Int) (p : Nat) :
    ∀ (fuel b c : Nat) (f : Nat → α), b ≤ (dpMainLoop key p fuel b c f).1 := by
  intro fuel
  induction fuel with
  | zero => intro b c f; exact Nat.le_refl b
  | succ fuel ih =>
    intro b c f
    rw [dpMainLoop]
    split_ifs with h
    · exact dpScanB_ge key p c c b f
    · have hb1 := dpScanB_ge key p c c b f
      exact le_trans (by omega) (ih _ _ _)

theorem dpMainLoop_bc_eq {α : Type} (key : α → Int) (p : Nat) :
    ∀ (fuel b c : Nat) (f : Nat → α), b ≤ c → c - b < fuel →
      (dpMainLoop key p fuel b c f).1 = (dpMainLoop key p fuel b c f).2.1 := by
  intro fuel
  induction fuel with
  | zero => intro b c f hbc hfuel; omega
  | succ fuel ih =>
    intro b c f hbc hfuel
    rw [dpMainLoop]
    have hb1 := dpScanB_ge key p c c b f
    have hb1c := dpScanB_le_max key p c c b f
    have hc1 := dpScanC_le key p (dpScanB key p c c b f) c f
    have hc1b := dpScanC_ge key p (dpScanB key p c c b f) c f (by omega)
    split_ifs with h
    · show dpScanB key p c c b f = dpScanC key p (dpScanB key p c c b f) c f
      omega
    · push_neg at h
      have hstopB := dpScanB_stop key p c c b f (by omega) (by omega)
      have hstopC := dpScanC_stop key p (dpScanB key p c c b f) c f (by omega)
      have hadj : dpScanB key p c c b f + 2 ≤ dpScanC key p (dpScanB key p c c b f) c f := by
        rcases Nat.lt_or_ge (dpScanB key p c c b f + 1)
            (dpScanC key p (dpScanB key p c c b f) c f) with hx | hx
        · omega
        · have heq1 : dpScanC key p (dpScanB key p c c b f) c f - 1 = dpScanB key p c c b f := by
            omega
          rw [heq1] at hstopC
          exact absurd hstopB hstopC
      exact ih _ _ _ (by omega) (by omega)

theorem dpProtLoop_b_le {α : Type} (key : α → Int) (p : Nat) :
    ∀ (fuel a b : Nat) (f : Nat → α), (dpProtLoop key p fuel a b f).2.1 ≤ b := by
  intro fuel
  induction fuel with
  | zero => intro a b f; exact Nat.le_refl b
  | succ fuel ih =>
    intro a b f
    rw [dpProtLoop]
    split_ifs with h
    · exact dpProtScanB_le key p a b f
    · have hb1 := dpProtScanB_le key p a b f
      refine le_trans (ih _ _ _) (by omega)

theorem dpProtScanA_ge {α : Type} (key : α → Int) (p b : Nat) :
    ∀ (fuel a : Nat) (f : Nat → α), a ≤ dpProtScanA key p b fuel a f := by
  intro fuel
  induction fuel with
  | zero => intro a f; exact Nat.le_refl a
  | succ fuel ih =>
    intro a f
    rw [dpProtScanA]
    split_ifs with h
    · exact le_trans (by omega) (ih (a+1) f)
    · exact Nat.le_refl a

theorem dpProtScanB_ge2 {α : Type} (key : α → Int) (p : Nat) {lo : Nat} (a : Nat) :
    ∀ (b : Nat) (f : Nat → α), lo + 1 ≤ a → lo + 1 ≤ b →
      lo + 1 ≤ dpProtScanB key p a b f := by
  intro b
  induction b with
  | zero => intro f ha hb; omega
  | succ b ih =>
    intro f ha hb
    rw [dpProtScanB]
    split_ifs with h
    · exact ih f ha (by omega)
    · omega

theorem dpProtLoop_ps {α : Type} (key : α → Int) (p : Nat) {lo hi : Nat} :
    ∀ (fuel a b : Nat) (f : Nat → α), lo ≤ a → b ≤ hi →
      PermSeg lo hi f (dpProtLoop key p fuel a b f).2.2 := by
  intro fuel
  induction fuel with
  | zero => intro a b f hloa hb; exact ps_refl _ _ f
  | succ fuel ih =>
    intro a b f hloa hb
    rw [dpProtLoop]
    split_ifs with h
    · exact ps_refl _ _ f
    · push_neg at h
      have hb1 := dpProtScanB_le key p a b f
      have ha1 := dpProtScanA_ge key p (dpProtScanB key p a b f)
        (dpProtScanB key p a b f) a f
      refine ps_trans (ps_swapF f ?_ ?_ ?_ ?_) (ih _ _ _ ?_ ?_) <;> omega

theorem dpProtLoop_b_ge {α : Type} (key : α → Int) (p : Nat) {lo : Nat} :
    ∀ (fuel a b : Nat) (f : Nat → α), lo + 1 ≤ a → lo + 1 ≤ b →
      lo + 1 ≤ (dpProtLoop key p fuel a b f).2.1 := by
  intro fuel
  induction fuel with
  | zero => intro a b f ha hb; exact hb
  | succ fuel ih =>
    intro a b f ha hb
    rw [dpProtLoop]
    have hbge := dpProtScanB_ge2 key p a b f ha hb
    have ha1 := dpProtScanA_ge key p (dpProtScanB key p a b f)
      (dpProtScanB key p a b f) a f
    split_ifs with h
    · exact hbge
    · push_neg at h
      exact ih _ _ _ (by omega) (by omega)

theorem dpMedians_ps {α : Type} (key : α → Int) (f0 : Nat → α) (lo hi : Nat)
    (h : lo + 1 < hi) : PermSeg lo hi f0 (dpMedians key f0 lo hi) := by
  unfold dpMedians
  split_ifs with h40
  · refine ps_trans (ps_trans (ps_trans
      (medianOfThree_ps key f0 ⟨by omega, by omega⟩ ⟨by omega, by omega⟩ ⟨by omega, by omega⟩)
      (medianOfThree_ps key _ ⟨by omega, by omega⟩ ⟨by omega, by omega⟩ ⟨by omega, by omega⟩))
      (medianOfThree_ps key _ ⟨by omega, by omega⟩ ⟨by omega, by omega⟩ ⟨by omega, by omega⟩))
      (medianOfThree_ps key _ ⟨by omega, by omega⟩ ⟨by omega, by omega⟩ ⟨by omega, by omega⟩)
  · exact medianOfThree_ps key f0 ⟨by omega, by omega⟩ ⟨by omega, by omega⟩ ⟨by omega, by omega⟩

theorem dpDupsTest3_ps {α : Type} (key : α → Int) (lo0 m b3 c2 : Nat) (f4 : Nat → α)
    (d2 : Nat) {lo hi : Nat} (hm : lo ≤ m ∧ m < hi) (hb : lo + 1 ≤ b3 ∧ b3 ≤ hi) :
    PermSeg lo hi f4 (dpDupsTest3 key lo0 m b3 c2 f4 d2).2.2.2 := by
  unfold dpDupsTest3
  split_ifs
  · show PermSeg lo hi f4 f4
    exact ps_refl _ _ _
  · show PermSeg lo hi f4 (swapF f4 m (b3 - 1))
    exact ps_swapF _ hm.1 hm.2 (by omega) (by omega)

theorem dpDupsTest2_ps {α : Type} (key : α → Int) (lo0 m b1 c2 : Nat) (f4 : Nat → α)
    (d1 : Nat) {lo hi : Nat} (hm : lo ≤ m ∧ m < hi) (hb : lo + 2 ≤ b1 ∧ b1 ≤ hi) :
    PermSeg lo hi f4 (dpDupsTest2 key lo0 m b1 c2 f4 d1).2.2.2 := by
  unfold dpDupsTest2
  split_ifs
  · exact dpDupsTest3_ps key lo0 m b1 c2 f4 d1 hm ⟨by omega, by omega⟩
  · exact dpDupsTest3_ps key lo0 m (b1 - 1) c2 f4 (d1 + 1) hm ⟨by omega, by omega⟩

theorem dpDups_ps {α : Type} (key : α → Int) (lo hi m b1 c1 : Nat) (f3 : Nat → α)
    (hbc : b1 = c1) (h12 : lo + 12 < hi) (hb : b1 ≤ hi - 1) (hc : c1 ≤ hi - 1)
    (hm : lo ≤ m ∧ m < hi) :
    PermSeg lo hi f3 (dpDups key lo hi m b1 c1 f3).2.2.2 := by
  unfold dpDups dpDupsTests
  split_ifs with hp1 hp2 hp3 hp4
  · exact ps_refl _ _ _
  · exact dpDupsTest2_ps key lo m b1 c1 f3 0 hm ⟨by omega, by omega⟩
  · have h1 : PermSeg lo hi f3 (swapF f3 c1 (hi - 1)) :=
      ps_swapF _ (by omega) (by omega) (by omega) (by omega)
    exact ps_trans h1
      (dpDupsTest2_ps key lo m b1 (c1 + 1) (swapF f3 c1 (hi - 1)) 1 hm ⟨by omega, by omega⟩)
  · exact ps_refl _ _ _

theorem dpDupsTest3_b_le {α : Type} (key : α → Int) (lo m b3 c2 : Nat) (f4 : Nat → α)
    (d2 : Nat) : (dpDupsTest3 key lo m b3 c2 f4 d2).2.1 ≤ b3 := by
  unfold dpDupsTest3
  split_ifs <;> simp <;> omega

theorem dpDupsTest3_c_eq {α : Type} (key : α → Int) (lo m b3 c2 : Nat) (f4 : Nat → α)
    (d2 : Nat) : (dpDupsTest3 key lo m b3 c2 f4 d2).2.2.1 = c2 := by
  unfold dpDupsTest3
  split_ifs <;> rfl

theorem dpDupsTest2_b_le {α : Type} (key : α → Int) (lo m b1 c2 : Nat) (f4 : Nat → α)
    (d1 : Nat) : (dpDupsTest2 key lo m b1 c2 f4 d1).2.1 ≤ b1 := by
  have hA := dpDupsTest3_b_le key lo m (b1 - 1) c2 f4 (d1 + 1)
  have hB := dpDupsTest3_b_le key lo m b1 c2 f4 d1
  unfold dpDupsTest2
  split_ifs <;> omega

theorem dpDupsTest2_c_eq {α : Type} (key : α → Int) (lo m b1 c2 : Nat) (f4 : Nat → α)
    (d1 : Nat) : (dpDupsTest2 key lo m b1 c2 f4 d1).2.2.1 = c2 := by
  unfold dpDupsTest2
  split_ifs <;> exact dpDupsTest3_c_eq key lo m _ c2 f4 _

theorem dpDups_b_le {α : Type} (key : α → Int) (lo hi m b1 c1 : Nat) (f3 : Nat → α) :
    (dpDups key lo hi m b1 c1 f3).2.1 ≤ b1 := by
  have hA := dpDupsTest2_b_le key lo m b1 (c1 + 1) (swapF f3 c1 (hi - 1)) 1
  have hB := dpDupsTest2_b_le key lo m b1 c1 f3 0
  unfold dpDups dpDupsTests
  split_ifs <;> (try dsimp only) <;> omega

theorem dpDups_c_le {α : Type} (key : α → Int) (lo hi m b1 c1 : Nat) (f3 : Nat → α) :
    (dpDups key lo hi m b1 c1 f3).2.2.1 ≤ c1 + 1 := by
  have hA := dpDupsTest2_c_eq key lo m b1 (c1 + 1) (swapF f3 c1 (hi - 1)) 1
  have hB := dpDupsTest2_c_eq key lo m b1 c1 f3 0
  unfold dpDups dpDupsTests
  split_ifs <;> (try dsimp only) <;> omega

theorem dpFinish_ps {α : Type} (key : α → Int) (lo a0 : Nat)
    (t : Bool × Nat × Nat × (Nat → α)) {hi : Nat} (hb : t.2.1 ≤ hi) (hlo : lo < hi)
    (ha0 : lo + 1 ≤ a0) (hbge : lo + 1 ≤ t.2.1) :
    PermSeg lo hi t.2.2.2 (dpFinish key lo a0 t).2.2 := by
  unfold dpFinish
  split_ifs with hprot
  · have hle := dpProtLoop_b_le key lo (t.2.1+1) a0 t.2.1 t.2.2.2
    have hge := dpProtLoop_b_ge key lo (t.2.1+1) a0 t.2.1 t.2.2.2 ha0 hbge
    show PermSeg lo hi t.2.2.2
      (swapF (dpProtLoop key lo (t.2.1+1) a0 t.2.1 t.2.2.2).2.2 lo
        ((dpProtLoop key lo (t.2.1+1) a0 t.2.1 t.2.2.2).2.1 - 1))
    exact ps_trans (dpProtLoop_ps key lo (t.2.1+1) a0 t.2.1 t.2.2.2 (by omega) hb)
      (ps_swapF _ (le_refl lo) hlo (by omega) (by omega))
  · show PermSeg lo hi t.2.2.2 (swapF t.2.2.2 lo (t.2.1 - 1))
    exact ps_swapF _ (le_refl lo) hlo (by omega) (by omega)

theorem dpFinish_fst_le {α : Type} (key : α → Int) (lo a0 : Nat)
    (t : Bool × Nat × Nat × (Nat → α)) : (dpFinish key lo a0 t).1 ≤ t.2.1 - 1 := by
  unfold dpFinish
  split_ifs with hprot
  · have hle := dpProtLoop_b_le key lo (t.2.1+1) a0 t.2.1 t.2.2.2
    show (dpProtLoop key lo (t.2.1+1) a0 t.2.1 t.2.2.2).2.1 - 1 ≤ t.2.1 - 1
    omega
  · exact le_refl _

/-- The value of `a` after `doPivot`'s first scan. -/
def dpA0 {α : Type} (key : α → Int) (f0 : Nat → α) (lo hi : Nat) : Nat :=
  dpLoop1 key lo (hi-1) (hi-1) (lo+1) (dpMedians key f0 lo hi)

/-- The state after `doPivot`'s partition loop. -/
def dpR {α : Type} (key : α → Int) (f0 : Nat → α) (lo hi : Nat) : Nat × Nat × (Nat → α) :=
  dpMainLoop key lo hi (dpA0 key f0 lo hi) (hi-1) (dpMedians key f0 lo hi)

/-- The state after `doPivot`'s duplicate tests. -/
def dpT {α : Type} (key : α → Int) (f0 : Nat → α) (lo hi : Nat) :
    Bool × Nat × Nat × (Nat → α) :=
  dpDups key lo hi ((lo + hi) / 2) (dpR key f0 lo hi).1 (dpR key f0 lo hi).2.1
    (dpR key f0 lo hi).2.2

theorem doPivotF_eq {α : Type} (key : α → Int) (f0 : Nat → α) (lo hi : Nat) :
    doPivotF key f0 lo hi = dpFinish key lo (dpA0 key f0 lo hi) (dpT key f0 lo hi) := rfl

theorem dpLoop1_ge {α : Type} (key : α → Int) (p c : Nat) :
    ∀ (fuel a : Nat) (f : Nat → α), a ≤ dpLoop1 key p c fuel a f := by
  intro fuel
  induction fuel with
  | zero => intro a f; exact Nat.le_refl a
  | succ fuel ih =>
    intro a f
    rw [dpLoop1]
    split_ifs with h
    · exact le_trans (by omega) (ih (a+1) f)
    · exact Nat.le_refl a

theorem dpDupsTest3_b_ge {α : Type} (key : α → Int) (lo m b3 c2 : Nat) (f4 : Nat → α)
    (d2 : Nat) : b3 - 1 ≤ (dpDupsTest3 key lo m b3 c2 f4 d2).2.1 := by
  unfold dpDupsTest3
  split_ifs <;> simp <;> omega

theorem dpDupsTest2_b_ge {α : Type} (key : α → Int) (lo m b1 c2 : Nat) (f4 : Nat → α)
    (d1 : Nat) : b1 - 2 ≤ (dpDupsTest2 key lo m b1 c2 f4 d1).2.1 := by
  have hA := dpDupsTest3_b_ge key lo m (b1 - 1) c2 f4 (d1 + 1)
  have hB := dpDupsTest3_b_ge key lo m b1 c2 f4 d1
  unfold dpDupsTest2
  split_ifs <;> omega

theorem dpDups_b_ge {α : Type} (key : α → Int) (lo hi m b1 c1 : Nat) (f3 : Nat → α)
    (hbc : b1 = c1) (h12 : lo + 12 < hi) (hb1 : lo + 1 ≤ b1) :
    lo + 1 ≤ (dpDups key lo hi m b1 c1 f3).2.1 := by
  have hA := dpDupsTest2_b_ge key lo m b1 (c1 + 1) (swapF f3 c1 (hi - 1)) 1
  have hB := dpDupsTest2_b_ge key lo m b1 c1 f3 0
  unfold dpDups dpDupsTests
  split_ifs <;> (try dsimp only) <;> omega

theorem doPivotF_ps {α : Type} (key : α → Int) (f0 : Nat → α) (lo hi : Nat)
    (h : lo + 12 < hi) : PermSeg lo hi f0 (doPivotF key f0 lo hi).2.2 := by
  rw [doPivotF_eq]
  have hmed : PermSeg lo hi f0 (dpMedians key f0 lo hi) := dpMedians_ps key f0 lo hi (by omega)
  have ha0ge : lo + 1 ≤ dpA0 key f0 lo hi :=
    dpLoop1_ge key lo (hi-1) (hi-1) (lo+1) (dpMedians key f0 lo hi)
  have ha0le : dpA0 key f0 lo hi ≤ hi - 1 := by
    have := dpLoop1_le_max key lo (hi-1) (hi-1) (lo+1) (dpMedians key f0 lo hi)
    show dpLoop1 key lo (hi-1) (hi-1) (lo+1) (dpMedians key f0 lo hi) ≤ hi - 1
    omega
  have hbge : dpA0 key f0 lo hi ≤ (dpR key f0 lo hi).1 :=
    dpMainLoop_b_ge key lo hi (dpA0 key f0 lo hi) (hi-1) (dpMedians key f0 lo hi)
  have hble : (dpR key f0 lo hi).1 ≤ hi - 1 := by
    have := dpMainLoop_fst_le key lo hi (dpA0 key f0 lo hi) (hi-1) (dpMedians key f0 lo hi)
    show (dpMainLoop key lo hi (dpA0 key f0 lo hi) (hi-1) (dpMedians key f0 lo hi)).1 ≤ hi - 1
    omega
  have hcle : (dpR key f0 lo hi).2.1 ≤ hi - 1 :=
    dpMainLoop_c_le key lo hi (dpA0 key f0 lo hi) (hi-1) (dpMedians key f0 lo hi)
  have hbc : (dpR key f0 lo hi).1 = (dpR key f0 lo hi).2.1 :=
    dpMainLoop_bc_eq key lo hi (dpA0 key f0 lo hi) (hi-1) (dpMedians key f0 lo hi)
      (by omega) (by omega)
  have hmain : PermSeg lo hi (dpMedians key f0 lo hi) (dpR key f0 lo hi).2.2 :=
    dpMainLoop_ps key lo hi (dpA0 key f0 lo hi) (hi-1) (dpMedians key f0 lo hi)
      (by omega) (by omega)
  have hdups : PermSeg lo hi (dpR key f0 lo hi).2.2 (dpT key f0 lo hi).2.2.2 :=
    dpDups_ps key lo hi ((lo + hi) / 2) (dpR key f0 lo hi).1 (dpR key f0 lo hi).2.1
      (dpR key f0 lo hi).2.2 hbc h (by omega) (by omega) ⟨by omega, by omega⟩
  have htble : (dpT key f0 lo hi).2.1 ≤ (dpR key f0 lo hi).1 :=
    dpDups_b_le key lo hi ((lo + hi) / 2) (dpR key f0 lo hi).1 (dpR key f0 lo hi).2.1
      (dpR key f0 lo hi).2.2
  have htge : lo + 1 ≤ (dpT key f0 lo hi).2.1 :=
    dpDups_b_ge key lo hi ((lo + hi) / 2) (dpR key f0 lo hi).1 (dpR key f0 lo hi).2.1
      (dpR key f0 lo hi).2.2 hbc h (by omega)
  have hfin : PermSeg lo hi (dpT key f0 lo hi).2.2.2
      (dpFinish key lo (dpA0 key f0 lo hi) (dpT key f0 lo hi)).2.2 :=
    dpFinish_ps key lo (dpA0 key f0 lo hi) (dpT key f0 lo hi) (by omega) (by omega)
      (by omega) (by omega)
  exact ps_trans hmed (ps_trans hmain (ps_trans hdups hfin))

theorem doPivotF_fst_le {α : Type} (key : α → Int) (f0 : Nat → α) (lo hi : Nat)
    (h : lo + 12 < hi) : (doPivotF key f0 lo hi).1 ≤ hi - 2 := by
  unfold doPivotF
  dsimp only
  have ha0 := dpLoop1_le_max key lo (hi-1) (hi-1) (lo+1) (dpMedians key f0 lo hi)
  have hb1 := dpMainLoop_fst_le key lo hi
    (dpLoop1 key lo (hi-1) (hi-1) (lo+1) (dpMedians key f0 lo hi)) (hi-1)
    (dpMedians key f0 lo hi)
  have hbds := dpDups_b_le key lo hi ((lo + hi) / 2)
    (dpMainLoop key lo hi (dpLoop1 key lo (hi-1) (hi-1) (lo+1) (dpMedians key f0 lo hi))
      (hi-1) (dpMedians key f0 lo hi)).1
    (dpMainLoop key lo hi (dpLoop1 key lo (hi-1) (hi-1) (lo+1) (dpMedians key f0 lo hi))
      (hi-1) (dpMedians key f0 lo hi)).2.1
    (dpMainLoop key lo hi (dpLoop1 key lo (hi-1) (hi-1) (lo+1) (dpMedians key f0 lo hi))
      (hi-1) (dpMedians key f0 lo hi)).2.2
  have hfin := dpFinish_fst_le key lo
    (dpLoop1 key lo (hi-1) (hi-1) (lo+1) (dpMedians key f0 lo hi))
    (dpDups key lo hi ((lo + hi) / 2)
      (dpMainLoop key lo hi (dpLoop1 key lo (hi-1) (hi-1) (lo+1) (dpMedians key f0 lo hi))
        (hi-1) (dpMedians key f0 lo hi)).1
      (dpMainLoop key lo hi (dpLoop1 key lo (hi-1) (hi-1) (lo+1) (dpMedians key f0 lo hi))
        (hi-1) (dpMedians key f0 lo hi)).2.1
      (dpMainLoop key lo hi (dpLoop1 key lo (hi-1) (hi-1) (lo+1) (dpMedians key f0 lo hi))
        (hi-1) (dpMedians key f0 lo hi)).2.2)
  omega

theorem shellIns_ps {α : Type} (key : α → Int) (f : Nat → α) (a b : Nat) (hab : a < b) :
    PermSeg a b f (insertionSortF key (shellGo key (b - (a+6)) (a+6) f) a b) := by
  refine ps_trans ?_ (insertionSortF_ps key _ a b hab)
  by_cases hb : a + 6 ≤ b
  · have h2 := shellGo_ps key a (b - (a+6)) (a+6) f (le_refl (a+6))
    have heq : (a+6) + (b - (a+6)) = b := by omega
    rwa [heq] at h2
  · have h0 : b - (a+6) = 0 := by omega
    rw [h0]
    exact ps_refl a b f

theorem doPivotF_fst_ge {α : Type} (key : α → Int) (f0 : Nat → α) (lo hi : Nat)
    (h : lo + 12 < hi) : lo ≤ (doPivotF key f0 lo hi).1 := by
  rw [doPivotF_eq]
  have ha0ge : lo + 1 ≤ dpA0 key f0 lo hi :=
    dpLoop1_ge key lo (hi-1) (hi-1) (lo+1) (dpMedians key f0 lo hi)
  have hbge : dpA0 key f0 lo hi ≤ (dpR key f0 lo hi).1 :=
    dpMainLoop_b_ge key lo hi (dpA0 key f0 lo hi) (hi-1) (dpMedians key f0 lo hi)
  have ha0le : dpA0 key f0 lo hi ≤ hi - 1 := by
    have := dpLoop1_le_max key lo (hi-1) (hi-1) (lo+1) (dpMedians key f0 lo hi)
    show dpLoop1 key lo (hi-1) (hi-1) (lo+1) (dpMedians key f0 lo hi) ≤ hi - 1
    omega
  have hbc : (dpR key f0 lo hi).1 = (dpR key f0 lo hi).2.1 :=
    dpMainLoop_bc_eq key lo hi (dpA0 key f0 lo hi) (hi-1) (dpMedians key f0 lo hi)
      (by omega) (by omega)
  have htge : lo + 1 ≤ (dpT key f0 lo hi).2.1 :=
    dpDups_b_ge key lo hi ((lo + hi) / 2) (dpR key f0 lo hi).1 (dpR key f0 lo hi).2.1
      (dpR key f0 lo hi).2.2 hbc h (by omega)
  unfold dpFinish
  split_ifs with hprot
  · have hge : lo + 1 ≤ (dpProtLoop key lo ((dpT key f0 lo hi).2.1+1) (dpA0 key f0 lo hi)
        (dpT key f0 lo hi).2.1 (dpT key f0 lo hi).2.2.2).2.1 :=
      dpProtLoop_b_ge key lo ((dpT key f0 lo hi).2.1+1) (dpA0 key f0 lo hi)
        (dpT key f0 lo hi).2.1 (dpT key f0 lo hi).2.2.2 (by omega) (by omega)
    show lo ≤ (dpProtLoop key lo ((dpT key f0 lo hi).2.1+1) (dpA0 key f0 lo hi)
      (dpT key f0 lo hi).2.1 (dpT key f0 lo hi).2.2.2).2.1 - 1
    omega
  · show lo ≤ (dpT key f0 lo hi).2.1 - 1
    omega

theorem dpDups_c_ge {α : Type} (key : α → Int) (lo hi m b1 c1 : Nat) (f3 : Nat → α) :
    c1 ≤ (dpDups key lo hi m b1 c1 f3).2.2.1 := by
  have hA := dpDupsTest2_c_eq key lo m b1 (c1 + 1) (swapF f3 c1 (hi - 1)) 1
  have hB := dpDupsTest2_c_eq key lo m b1 c1 f3 0
  unfold dpDups dpDupsTests
  split_ifs <;> (try dsimp only) <;> omega

theorem dpFinish_c_eq {α : Type} (key : α → Int) (lo a0 : Nat)
    (t : Bool × Nat × Nat × (Nat → α)) : (dpFinish key lo a0 t).2.1 = t.2.2.1 := by
  unfold dpFinish
  split_ifs <;> rfl

theorem doPivotF_snd_ge {α : Type} (key : α → Int) (f0 : Nat → α) (lo hi : Nat)
    (h : lo + 12 < hi) : lo + 1 ≤ (doPivotF key f0 lo hi).2.1 := by
  rw [doPivotF_eq, dpFinish_c_eq]
  have ha0ge : lo + 1 ≤ dpA0 key f0 lo hi :=
    dpLoop1_ge key lo (hi-1) (hi-1) (lo+1) (dpMedians key f0 lo hi)
  have hbge : dpA0 key f0 lo hi ≤ (dpR key f0 lo hi).1 :=
    dpMainLoop_b_ge key lo hi (dpA0 key f0 lo hi) (hi-1) (dpMedians key f0 lo hi)
  have ha0le : dpA0 key f0 lo hi ≤ hi - 1 := by
    have := dpLoop1_le_max key lo (hi-1) (hi-1) (lo+1) (dpMedians key f0 lo hi)
    show dpLoop1 key lo (hi-1) (hi-1) (lo+1) (dpMedians key f0 lo hi) ≤ hi - 1
    omega
  have hbc : (dpR key f0 lo hi).1 = (dpR key f0 lo hi).2.1 :=
    dpMainLoop_bc_eq key lo hi (dpA0 key f0 lo hi) (hi-1) (dpMedians key f0 lo hi)
      (by omega) (by omega)
  have hcge : (dpR key f0 lo hi).2.1 ≤ (dpT key f0 lo hi).2.2.1 :=
    dpDups_c_ge key lo hi ((lo + hi) / 2) (dpR key f0 lo hi).1 (dpR key f0 lo hi).2.1
      (dpR key f0 lo hi).2.2
  omega

theorem quickSortF_ps {α : Type} (key : α → Int) :
    ∀ (depth : Nat) (f : Nat → α) (a b : Nat), PermSeg a b f (quickSortF key depth f a b) := by
  intro depth
  induction depth with
  | zero =>
    intro f a b
    rw [quickSortF]
    split_ifs with h12 h1
    · exact heapSortF_ps key f a b (by omega)
    · exact shellIns_ps key f a b (by omega)
    · exact ps_refl _ _ f
  | succ d ih =>
    intro f a b
    rw [quickSortF]
    split_ifs with h12 h1
    · have hps := doPivotF_ps key f a b (by omega)
      have hfst := doPivotF_fst_le key f a b (by omega)
      have hfge := doPivotF_fst_ge key f a b (by omega)
      have hsge := doPivotF_snd_ge key f a b (by omega)
      dsimp only
      split_ifs with hside
      · exact ps_trans hps (ps_trans
          (ps_mono (by omega) (by omega) (ih _ a (doPivotF key f a b).1))
          (ps_mono (by omega) (le_refl b) (ih _ (doPivotF key f a b).2.1 b)))
      · exact ps_trans hps (ps_trans
          (ps_mono (by omega) (le_refl b) (ih _ (doPivotF key f a b).2.1 b))
          (ps_mono (le_refl a) (by omega) (ih _ a (doPivotF key f a b).1)))
    · exact shellIns_ps key f a b (by omega)
    · exact ps_refl _ _ f

theorem goSortF_pb {α : Type} (key : α → Int) (f : Nat → α) (n : Nat) :
    PermBelow n f (goSortF key f n) :=
  ps_to_pb (quickSortF_ps key (maxDepthGo n) f 0 n)

theorem pb_listPerm {α : Type} {n : Nat} {f g : Nat → α} (h : PermBelow n f g) :
    ((List.range n).map g).Perm ((List.range n).map f) := by
  obtain ⟨π, hsupp, heq⟩ := h
  have hmap : (List.range n).map g = ((List.range n).map (fun k => π k)).map f := by
    rw [List.map_map]
    exact List.map_congr_left (fun k _ => heq k)
  rw [hmap]
  refine List.Perm.map f ?_
  have hnodup : ((List.range n).map (fun k => π k)).Nodup :=
    List.Nodup.map π.injective (List.nodup_range n)
  have hsub : ((List.range n).map (fun k => π k)) ⊆ List.range n := by
    intro x hx
    simp only [List.mem_map, List.mem_range] at hx ⊢
    obtain ⟨k, hk, rfl⟩ := hx
    by_cases hfix : π k = k
    · rw [hfix]; exact hk
    · have hne : π (π k) ≠ π k := fun e => hfix (π.injective e)
      exact hsupp (π k) hne
  have hlen : (List.range n).length ≤ ((List.range n).map (fun k => π k)).length := by simp
  exact (List.subperm_of_subset hnodup hsub).perm_of_length_le hlen

theorem map_range_getD (s : List duInfo) :
    (List.range s.length).map (fun i => s.getD i default) = s := by
  apply List.ext_getElem
  · simp
  · intro i h1 h2
    simp only [List.getElem_map, List.getElem_range]
    exact List.getD_eq_getElem s default h2

theorem sortDu_perm (s : List duInfo) : (sortDu s).Perm s := by
  have h := pb_listPerm (goSortF_pb duKey (fun i => s.getD i default) s.length)
  rw [map_range_getD s] at h
  exact h

theorem wrap64_mod (a : Int) : wrap64 a % 2 ^ 64 = a % 2 ^ 64 := by
  unfold wrap64
  omega

theorem wrap64_range (a : Int) : -(2 ^ 63) ≤ wrap64 a ∧ wrap64 a < 2 ^ 63 := by
  unfold wrap64
  omega

theorem sumSizes_foldl_mod : ∀ (l : List duInfo) (acc : Int),
    (l.foldl (fun acc x => wrap64 (acc + x.size)) acc) % 2 ^ 64 =
      (acc + (l.map duInfo.size).sum) % 2 ^ 64 := by
  intro l
  induction l with
  | nil => intro acc; simp
  | cons x l ih =>
    intro acc
    rw [List.foldl_cons, ih (wrap64 (acc + x.size))]
    have h1 := wrap64_mod (acc + x.size)
    simp only [List.map_cons, List.sum_cons]
    omega

theorem sumSizes_foldl_range : ∀ (l : List duInfo) (acc : Int),
    -(2 ^ 63) ≤ acc → acc < 2 ^ 63 →
    -(2 ^ 63) ≤ l.foldl (fun acc x => wrap64 (acc + x.size)) acc ∧
      l.foldl (fun acc x => wrap64 (acc + x.size)) acc < 2 ^ 63 := by
  intro l
  induction l with
  | nil => intro acc h1 h2; exact ⟨h1, h2⟩
  | cons x l ih =>
    intro acc h1 h2
    rw [List.foldl_cons]
    have h3 := wrap64_range (acc + x.size)
    exact ih (wrap64 (acc + x.size)) h3.1 h3.2

theorem sumSizes_wrap (s : List duInfo) :
    sumSizes s = wrap64 ((s.map duInfo.size).sum) := by
  have h1 := sumSizes_foldl_mod s 0
  have h2 := sumSizes_foldl_range s 0 (by norm_num) (by norm_num)
  have h3 := wrap64_mod ((s.map duInfo.size).sum)
  have h4 := wrap64_range ((s.map duInfo.size).sum)
  unfold sumSizes
  omega

theorem sumSizes_sortDu (s : List duInfo) : sumSizes (sortDu s) = sumSizes s := by
  rw [sumSizes_wrap, sumSizes_wrap,
    List.Perm.sum_eq ((sortDu_perm s).map duInfo.size)]

/-- C1 (counterexample): the total is not the exact sum on every parseable
report — Go's `total` accumulates into a 64-bit `int` that wraps. The report
`"9223372036854775807\ta\n9223372036854775807\tb\n"` parses (both sizes are
the maximal int64, accepted by `strconv.Atoi`), yet the rendered total
record has size `-2`, while the exact sum of the two rendered non-total
records is `2^64 - 2`. -/
theorem renderRecords_total_wraps :
    newDuSlice (fun _ => 0)
        ("9223372036854775807\ta\n9223372036854775807\tb\n").data =
      ParseOutcome.ok [⟨"a".data, 2 ^ 63 - 1, 0⟩, ⟨"b".data, 2 ^ 63 - 1, 0⟩] ∧
    (renderRecords [⟨"a".data, 2 ^ 63 - 1, 0⟩, ⟨"b".data, 2 ^ 63 - 1, 0⟩]).getLast? =
      some ⟨"total".data, -2, 0⟩ ∧
    (((renderRecords [⟨"a".data, 2 ^ 63 - 1, 0⟩,
        ⟨"b".data, 2 ^ 63 - 1, 0⟩]).dropLast).map duInfo.size).sum = 2 ^ 64 - 2 := by
  refine ⟨by decide, by decide, by decide⟩

/-- C1 (amended): for every parsed report, the rendered record sequence is
the `sort.Sort`-ordered records followed by exactly one synthesized record
named `"total"`; that record is last, and it is appended only after sorting,
so it never participates in the sort comparison (the sorted prefix is the
sort of the parsed records alone). Its size is the `total` accumulation of
the sizes of all other rendered records (equivalently, of all parsed
records — the sort is a permutation) into a 64-bit wrapping `int`: it is
congruent to the exact sum modulo `2^64` and equals the exact sum whenever
that sum fits in the signed 64-bit range — so for all realistic byte counts
— but it wraps on overflow, so it is not the exact sum on every parseable
report. -/
theorem renderRecords_total (s : List duInfo) :
    renderRecords s = sortDu s ++ [⟨"total".data, sumSizes (sortDu s), 0⟩] ∧
    (renderRecords s).getLast? = some ⟨"total".data, sumSizes (sortDu s), 0⟩ ∧
    (renderRecords s).dropLast = sortDu s ∧
    sumSizes (sortDu s) = sumSizes s ∧
    sumSizes s % 2 ^ 64 = (s.map duInfo.size).sum % 2 ^ 64 ∧
    (-(2 ^ 63) ≤ (s.map duInfo.size).sum → (s.map duInfo.size).sum < 2 ^ 63 →
      sumSizes s = (s.map duInfo.size).sum) := by
  refine ⟨rfl, ?_, ?_, sumSizes_sortDu s, ?_, ?_⟩
  · show (sortDu s ++ [(⟨"total".data, sumSizes (sortDu s), 0⟩ : duInfo)]).getLast? =
      some (⟨"total".data, sumSizes (sortDu s), 0⟩ : duInfo)
    exact List.getLast?_concat _
  · show (sortDu s ++ [(⟨"total".data, sumSizes (sortDu s), 0⟩ : duInfo)]).dropLast = sortDu s
    exact List.dropLast_concat
  · rw [sumSizes_wrap]
    exact wrap64_mod _
  · intro hlo hhi
    rw [sumSizes_wrap]
    unfold wrap64
    omega

/-- C1 (witness): the amended theorem applied to the parsed report
`"4096\t/tmp\n1024\t/tmp/a\n"`, whose exact sum `5120` is within the 64-bit
range: the rendered sequence is the two records in ascending size order
followed by the total record of size exactly `5120`. -/
theorem renderRecords_total_witness :
    ((renderRecords [⟨"/tmp".data, 4096, 0⟩, ⟨"/tmp/a".data, 1024, 0⟩]).getLast? =
      some ⟨"total".data,
        sumSizes (sortDu [⟨"/tmp".data, 4096, 0⟩, ⟨"/tmp/a".data, 1024, 0⟩]), 0⟩ ∧
     sumSizes (sortDu [⟨"/tmp".data, 4096, 0⟩, ⟨"/tmp/a".data, 1024, 0⟩]) =
      sumSizes [⟨"/tmp".data, 4096, 0⟩, ⟨"/tmp/a".data, 1024, 0⟩] ∧
     sumSizes [⟨"/tmp".data, 4096, 0⟩, ⟨"/tmp/a".data, 1024, 0⟩] =
      (([⟨"/tmp".data, 4096, 0⟩, ⟨"/tmp/a".data, 1024, 0⟩] :
        List duInfo).map duInfo.size).sum) ∧
    renderRecords [⟨"/tmp".data, 4096, 0⟩, ⟨"/tmp/a".data, 1024, 0⟩] =
      [⟨"/tmp/a".data, 1024, 0⟩, ⟨"/tmp".data, 4096, 0⟩, ⟨"total".data, 5120, 0⟩] :=
  ⟨⟨(renderRecords_total [⟨"/tmp".data, 4096, 0⟩, ⟨"/tmp/a".data, 1024, 0⟩]).2.1,
    (renderRecords_total [⟨"/tmp".data, 4096, 0⟩, ⟨"/tmp/a".data, 1024, 0⟩]).2.2.2.1,
    (renderRecords_total [⟨"/tmp".data, 4096, 0⟩, ⟨"/tmp/a".data, 1024, 0⟩]).2.2.2.2.2
      (by decide) (by decide)⟩,
   by decide⟩

theorem swapF_fst {α : Type} (f : Nat → α) (i j : Nat) : swapF f i j i = f j := by
  unfold swapF
  rw [if_pos rfl]

theorem swapF_snd {α : Type} (f : Nat → α) {i j : Nat} (h : j ≠ i) : swapF f i j j = f i := by
  unfold swapF
  rw [if_neg h, if_pos rfl]

theorem swapF_ne {α : Type} (f : Nat → α) {i j k : Nat} (h1 : k ≠ i) (h2 : k ≠ j) :
    swapF f i j k = f k := by
  unfold swapF
  rw [if_neg h1, if_neg h2]

theorem insInner_sorted {α : Type} (key : α → Int) (a top : Nat) :
    ∀ (j : Nat) (f : Nat → α), a ≤ j → j ≤ top →
      (∀ x y, a ≤ x → x < y → y ≤ top → x ≠ j → y ≠ j → key (f x) ≤ key (f y)) →
      (∀ y, j < y → y ≤ top → key (f j) ≤ key (f y)) →
      ∀ x y, a ≤ x → x < y → y ≤ top →
        key (insInner key a j f x) ≤ key (insInner key a j f y) := by
  intro j
  induction j with
  | zero =>
    intro f haj hjt hA hB x y hax hxy hyt
    show key (f x) ≤ key (f y)
    by_cases hx0 : x = 0
    · exact hx0 ▸ hB y (hx0 ▸ hxy) hyt
    · exact hA x y hax hxy hyt hx0 (by omega)
  | succ j ih =>
    intro f haj hjt hA hB x y hax hxy hyt
    rw [insInner]
    split_ifs with hc
    · refine ih (swapF f (j+1) j) (by omega) (by omega) ?_ ?_ x y hax hxy hyt
      · intro u v hau huv hvt huj hvj
        by_cases hu1 : u = j + 1
        · have hv1 : v ≠ j + 1 := by omega
          rw [hu1, swapF_fst, swapF_ne f hv1 hvj]
          exact hA j v (by omega) (by omega) hvt (by omega) hv1
        · by_cases hv1 : v = j + 1
          · rw [hv1, swapF_fst, swapF_ne f hu1 huj]
            exact hA u j hau (by omega) (by omega) hu1 (by omega)
          · rw [swapF_ne f hu1 huj, swapF_ne f hv1 hvj]
            exact hA u v hau huv hvt hu1 hv1
      · intro v hjv hvt
        rw [swapF_snd f (by omega)]
        by_cases hv1 : v = j + 1
        · rw [hv1, swapF_fst]
          exact le_of_lt hc.2
        · rw [swapF_ne f hv1 (by omega)]
          exact hB v (by omega) hvt
    · show key (f x) ≤ key (f y)
      push_neg at hc
      by_cases hx1 : x = j + 1
      · exact hx1 ▸ hB y (hx1 ▸ hxy) hyt
      · by_cases hy1 : y = j + 1
        · by_cases hax2 : a < j + 1
          · have hle : key (f j) ≤ key (f (j+1)) := hc hax2
            by_cases hxj : x = j
            · exact hxj ▸ hy1 ▸ hle
            · exact le_trans (hA x j hax (by omega) (by omega) (by omega) (by omega)) (hy1 ▸ hle)
          · omega
        · exact hA x y hax hxy hyt hx1 hy1

theorem insOuter_sorted {α : Type} (key : α → Int) (a : Nat) :
    ∀ (steps i : Nat) (f : Nat → α), a < i →
      (∀ x y, a ≤ x → x < y → y < i → key (f x) ≤ key (f y)) →
      ∀ x y, a ≤ x → x < y → y < i + steps →
        key (insOuter key a steps i f x) ≤ key (insOuter key a steps i f y) := by
  intro steps
  induction steps with
  | zero =>
    intro i f hai hs x y hax hxy hyi
    exact hs x y hax hxy (by omega)
  | succ steps ih =>
    intro i f hai hs x y hax hxy hyi
    rw [insOuter]
    refine ih (i+1) (insInner key a i f) (by omega) ?_ x y hax hxy (by omega)
    intro u v hau huv hvi
    exact insInner_sorted key a i i f (by omega) (le_refl i)
      (fun p q hap hpq hqt hpj hqj => hs p q hap hpq (by omega))
      (fun q hiq hqt => by omega) u v hau huv (by omega)

theorem insertionSortF_sorted {α : Type} (key : α → Int) (f : Nat → α) (a b : Nat) :
    ∀ x y, a ≤ x → x ≤ y → y < b →
      key (insertionSortF key f a b x) ≤ key (insertionSortF key f a b y) := by
  intro x y hax hxy hyb
  rcases Nat.eq_or_lt_of_le hxy with heq | hlt
  · rw [heq]
  · unfold insertionSortF
    by_cases hab : a + 1 ≤ b
    · exact insOuter_sorted key a (b - (a+1)) (a+1) f (by omega)
        (fun p q hap hpq hq1 => by omega) x y hax hlt (by omega)
    · omega

/-- Max-heap property of `f` over the slice positions `first + [0, hi)`,
required of every parent index at least `k`. -/
def HeapFrom {α : Type} (key : α → Int) (first hi k : Nat) (f : Nat → α) : Prop :=
  ∀ r c, k ≤ r → c < hi → (c = 2*r+1 ∨ c = 2*r+2) → key (f (first+c)) ≤ key (f (first+r))

theorem siftDownGo_untouched {α : Type} (key : α → Int) (first hi : Nat) :
    ∀ (fuel root : Nat) (f : Nat → α) (q : Nat), q ≠ root → q < 2*root+1 →
      siftDownGo key first hi fuel root f (first+q) = f (first+q) := by
  intro fuel
  induction fuel with
  | zero => intro root f q h1 h2; rfl
  | succ fuel ih =>
    intro root f q h1 h2
    rw [siftDownGo]
    dsimp only
    by_cases hch : 2*root+1 < hi
    · rw [if_pos hch]
      by_cases hsel : 2*root+1+1 < hi ∧ key (f (first+(2*root+1))) < key (f (first+(2*root+1)+1))
      · rw [if_pos hsel]
        by_cases hsw : key (f (first+root)) < key (f (first+(2*root+1+1)))
        · rw [if_pos hsw, ih (2*root+1+1) _ q (by omega) (by omega),
            swapF_ne f (by omega) (by omega)]
        · rw [if_neg hsw]
      · rw [if_neg hsel]
        by_cases hsw : key (f (first+root)) < key (f (first+(2*root+1)))
        · rw [if_pos hsw, ih (2*root+1) _ q (by omega) (by omega),
            swapF_ne f (by omega) (by omega)]
        · rw [if_neg hsw]
    · rw [if_neg hch]

theorem siftDownGo_root_le {α : Type} (key : α → Int) (first hi : Nat)
    (fuel root : Nat) (f : Nat → α) (B : Int)
    (h0 : key (f (first+root)) ≤ B)
    (hc : ∀ c, c < hi → (c = 2*root+1 ∨ c = 2*root+2) → key (f (first+c)) ≤ B) :
    key (siftDownGo key first hi fuel root f (first+root)) ≤ B := by
  cases fuel with
  | zero => exact h0
  | succ fuel =>
    rw [siftDownGo]
    dsimp only
    by_cases hch : 2*root+1 < hi
    · rw [if_pos hch]
      by_cases hsel : 2*root+1+1 < hi ∧ key (f (first+(2*root+1))) < key (f (first+(2*root+1)+1))
      · rw [if_pos hsel]
        by_cases hsw : key (f (first+root)) < key (f (first+(2*root+1+1)))
        · rw [if_pos hsw,
            siftDownGo_untouched key first hi fuel (2*root+1+1) _ root (by omega) (by omega),
            swapF_fst]
          exact hc (2*root+1+1) hsel.1 (by omega)
        · rw [if_neg hsw]; exact h0
      · rw [if_neg hsel]
        by_cases hsw : key (f (first+root)) < key (f (first+(2*root+1)))
        · rw [if_pos hsw,
            siftDownGo_untouched key first hi fuel (2*root+1) _ root (by omega) (by omega),
            swapF_fst]
          exact hc (2*root+1) hch (by omega)
        · rw [if_neg hsw]; exact h0
    · rw [if_neg hch]; exact h0

theorem siftDownGo_restore_step {α : Type} (key : α → Int) (first hi : Nat)
    (fuel root c2 : Nat) (f : Nat → α) (hfuel : hi ≤ fuel + c2)
    (hc2 : c2 = 2*root+1 ∨ c2 = 2*root+2) (hc2hi : c2 < hi)
    (hheap : HeapFrom key first hi (root+1) f)
    (hsw : key (f (first+root)) < key (f (first+c2)))
    (hsib : ∀ c, c < hi → (c = 2*root+1 ∨ c = 2*root+2) → c ≠ c2 →
      key (f (first+c)) ≤ key (f (first+c2)))
    (ih : ∀ (root : Nat) (f : Nat → α), hi ≤ fuel + root →
      HeapFrom key first hi (root+1) f →
      HeapFrom key first hi root (siftDownGo key first hi fuel root f)) :
    HeapFrom key first hi root
      (siftDownGo key first hi fuel c2 (swapF f (first+root) (first+c2))) := by
  have hpre : HeapFrom key first hi (c2+1) (swapF f (first+root) (first+c2)) := by
    intro r2 cc hr2 hcc hch2
    rw [swapF_ne f (by omega) (by omega), swapF_ne f (by omega) (by omega)]
    exact hheap r2 cc (by omega) hcc hch2
  have hrec := ih c2 (swapF f (first+root) (first+c2)) (by omega) hpre
  intro r c hr hc hchild
  rcases Nat.lt_or_ge r c2 with hrc | hrc
  · by_cases hrroot : r = root
    · rw [hrroot]
      have hval_root :
          siftDownGo key first hi fuel c2 (swapF f (first+root) (first+c2)) (first+root) =
            f (first+c2) := by
        rw [siftDownGo_untouched key first hi fuel c2 _ root (by omega) (by omega),
          swapF_fst]
      rw [hval_root]
      by_cases hcc2 : c = c2
      · rw [hcc2]
        apply siftDownGo_root_le key first hi fuel c2 (swapF f (first+root) (first+c2))
          (key (f (first+c2)))
        · rw [swapF_snd f (by omega)]
          exact le_of_lt hsw
        · intro cc hcc hch3
          rw [swapF_ne f (by omega) (by omega)]
          exact hheap c2 cc (by omega) hcc hch3
      · have hcun :
            siftDownGo key first hi fuel c2 (swapF f (first+root) (first+c2)) (first+c) =
              f (first+c) := by
          rw [siftDownGo_untouched key first hi fuel c2 _ c (by omega) (by omega),
            swapF_ne f (by omega) (by omega)]
        rw [hcun]
        exact hsib c hc (by omega) hcc2
    · have hrn :
          siftDownGo key first hi fuel c2 (swapF f (first+root) (first+c2)) (first+r) =
            f (first+r) := by
        rw [siftDownGo_untouched key first hi fuel c2 _ r (by omega) (by omega),
          swapF_ne f (by omega) (by omega)]
      have hcn :
          siftDownGo key first hi fuel c2 (swapF f (first+root) (first+c2)) (first+c) =
            f (first+c) := by
        rw [siftDownGo_untouched key first hi fuel c2 _ c (by omega) (by omega),
          swapF_ne f (by omega) (by omega)]
      rw [hrn, hcn]
      exact hheap r c (by omega) hc hchild
  · exact hrec r c hrc hc hchild

theorem siftDownGo_restore {α : Type} (key : α → Int) (first hi : Nat) :
    ∀ (fuel root : Nat) (f : Nat → α), hi ≤ fuel + root →
      HeapFrom key first hi (root+1) f →
      HeapFrom key first hi root (siftDownGo key first hi fuel root f) := by
  intro fuel
  induction fuel with
  | zero =>
    intro root f hfuel hheap r c hr hc hchild
    omega
  | succ fuel ih =>
    intro root f hfuel hheap
    rw [siftDownGo]
    dsimp only
    by_cases hch : 2*root+1 < hi
    · rw [if_pos hch]
      by_cases hsel : 2*root+1+1 < hi ∧ key (f (first+(2*root+1))) < key (f (first+(2*root+1)+1))
      · rw [if_pos hsel]
        by_cases hsw : key (f (first+root)) < key (f (first+(2*root+1+1)))
        · rw [if_pos hsw]
          refine siftDownGo_restore_step key first hi fuel root (2*root+1+1) f (by omega)
            (by omega) hsel.1 hheap hsw ?_ ih
          intro c hc hchild hne
          have hcval : c = 2*root+1 := by omega
          subst hcval
          exact le_of_lt hsel.2
        · rw [if_neg hsw]
          intro r c hr hc hchild
          by_cases hrroot : r = root
          · rw [hrroot] at hchild ⊢
            push_neg at hsw
            by_cases hcc : c = 2*root+1+1
            · subst hcc; exact hsw
            · have hcval : c = 2*root+1 := by omega
              subst hcval
              exact le_trans (le_of_lt hsel.2) hsw
          · exact hheap r c (by omega) hc hchild
      · rw [if_neg hsel]
        by_cases hsw : key (f (first+root)) < key (f (first+(2*root+1)))
        · rw [if_pos hsw]
          refine siftDownGo_restore_step key first hi fuel root (2*root+1) f (by omega)
            (by omega) hch hheap hsw ?_ ih
          intro c hc hchild hne
          have hcval : c = 2*root+1+1 := by omega
          subst hcval
          push_neg at hsel
          exact hsel hc
        · rw [if_neg hsw]
          intro r c hr hc hchild
          by_cases hrroot : r = root
          · rw [hrroot] at hchild ⊢
            push_neg at hsw hsel
            by_cases hcc : c = 2*root+1
            · subst hcc; exact hsw
            · have hcval : c = 2*root+1+1 := by omega
              subst hcval
              exact le_trans (hsel hc) hsw
          · exact hheap r c (by omega) hc hchild
    · rw [if_neg hch]
      intro r c hr hc hchild
      by_cases hrroot : r = root
      · omega
      · exact hheap r c (by omega) hc hchild

theorem heapFrom_init {α : Type} (key : α → Int) (first hi : Nat) (f : Nat → α) :
    HeapFrom key first hi ((hi - 1) / 2 + 1) f := by
  intro r c hr hc hchild
  omega

theorem heapBuild_heapFrom {α : Type} (key : α → Int) (first hi : Nat) :
    ∀ (n : Nat) (f : Nat → α), HeapFrom key first hi n f →
      HeapFrom key first hi 0 (heapBuild key first hi n f) := by
  intro n
  induction n with
  | zero => intro f h; exact h
  | succ n ih =>
    intro f h
    rw [heapBuild]
    exact ih _ (siftDownGo_restore key first hi hi n f (by omega) h)

theorem heapFrom_max {α : Type} (key : α → Int) (first n : Nat) (f : Nat → α)
    (hh : HeapFrom key first n 0 f) :
    ∀ k, k < n → key (f (first+k)) ≤ key (f (first+0)) := by
  intro k
  induction k using Nat.strong_induction_on with
  | _ k ih =>
    rcases k with _ | k2
    · intro hk; exact le_refl _
    · intro hk
      have hp : key (f (first+(k2+1))) ≤ key (f (first + k2/2)) :=
        hh (k2/2) (k2+1) (Nat.zero_le _) hk (by omega)
      exact le_trans hp (ih (k2/2) (by omega) (by omega))

theorem heapPop_sorted {α : Type} (key : α → Int) (first hi0 : Nat) :
    ∀ (n : Nat) (f : Nat → α), n ≤ hi0 →
      HeapFrom key first n 0 f →
      (∀ i j, n ≤ i → i ≤ j → j < hi0 → key (f (first+i)) ≤ key (f (first+j))) →
      (∀ i j, i < n → n ≤ j → j < hi0 → key (f (first+i)) ≤ key (f (first+j))) →
      ∀ i j, i ≤ j → j < hi0 →
        key (heapPop key first n f (first+i)) ≤ key (heapPop key first n f (first+j)) := by
  intro n
  induction n with
  | zero =>
    intro f hn hheap htail hcross i j hij hj
    exact htail i j (Nat.zero_le i) hij hj
  | succ n ih =>
    intro f hn hheap htail hcross i j hij hj
    rw [heapPop]
    have hps : PermSeg first (first + n) (swapF f first (first + n))
        (siftDownGo key first n n 0 (swapF f first (first + n))) :=
      siftDownGo_ps key first n n 0 (swapF f first (first + n))
    have hout : ∀ k, first + n ≤ k →
        siftDownGo key first n n 0 (swapF f first (first + n)) k =
          swapF f first (first + n) k :=
      fun k hk => ps_eq_outside hps k (Or.inr hk)
    have hswap_top : swapF f first (first + n) (first + n) = f first := by
      unfold swapF
      split_ifs with h1 h2
      · rw [h1]
      · rfl
      · exact absurd rfl h2
    have hmax : ∀ k, k < n+1 → key (f (first+k)) ≤ key (f (first+0)) :=
      heapFrom_max key first (n+1) f hheap
    have hpre : HeapFrom key first n 1 (swapF f first (first + n)) := by
      intro r c hr hc hchild
      rw [swapF_ne f (by omega) (by omega), swapF_ne f (by omega) (by omega)]
      exact hheap r c (Nat.zero_le r) (by omega) hchild
    have hheap2 : HeapFrom key first n 0
        (siftDownGo key first n n 0 (swapF f first (first + n))) :=
      siftDownGo_restore key first n n 0 (swapF f first (first + n)) (by omega) hpre
    have hbound : ∀ k, k < n →
        key (siftDownGo key first n n 0 (swapF f first (first + n)) (first+k)) ≤
          key (f first) := by
      intro k hk
      obtain ⟨i2, hi2a, hi2b, hval⟩ := ps_index hps (first+k) (by omega) (by omega)
      rw [hval]
      by_cases hi2f : i2 = first
      · rw [hi2f, swapF_fst]
        exact hmax n (by omega)
      · have hi2e : i2 = first + (i2 - first) := by omega
        rw [hi2e, swapF_ne f (by omega) (by omega)]
        exact hmax (i2 - first) (by omega)
    have htail2 : ∀ i j, n ≤ i → i ≤ j → j < hi0 →
        key (siftDownGo key first n n 0 (swapF f first (first + n)) (first+i)) ≤
          key (siftDownGo key first n n 0 (swapF f first (first + n)) (first+j)) := by
      intro i j hni hij2 hj2
      rw [hout (first+i) (by omega), hout (first+j) (by omega)]
      by_cases hin : i = n
      · rw [hin, hswap_top]
        by_cases hjn : j = n
        · rw [hjn, hswap_top]
        · rw [swapF_ne f (by omega) (by omega)]
          exact hcross 0 j (by omega) (by omega) hj2
      · rw [swapF_ne f (by omega) (by omega), swapF_ne f (by omega) (by omega)]
        exact htail i j (by omega) hij2 hj2
    have hcross2 : ∀ i j, i < n → n ≤ j → j < hi0 →
        key (siftDownGo key first n n 0 (swapF f first (first + n)) (first+i)) ≤
          key (siftDownGo key first n n 0 (swapF f first (first + n)) (first+j)) := by
      intro i j hi2 hnj hj2
      refine le_trans (hbound i hi2) ?_
      rw [hout (first+j) (by omega)]
      by_cases hjn : j = n
      · rw [hjn, hswap_top]
      · rw [swapF_ne f (by omega) (by omega)]
        exact hcross 0 j (by omega) (by omega) hj2
    exact ih (siftDownGo key first n n 0 (swapF f first (first + n))) (by omega)
      hheap2 htail2 hcross2 i j hij hj

theorem heapSortF_sorted {α : Type} (key : α → Int) (f : Nat → α) (a b : Nat) :
    ∀ x y, a ≤ x → x ≤ y → y < b →
      key (heapSortF key f a b x) ≤ key (heapSortF key f a b y) := by
  intro x y hax hxy hyb
  unfold heapSortF
  have hbuild : HeapFrom key a (b - a) 0
      (heapBuild key a (b - a) (((b - a) - 1) / 2 + 1) f) :=
    heapBuild_heapFrom key a (b - a) (((b - a) - 1) / 2 + 1) f
      (heapFrom_init key a (b - a) f)
  have h := heapPop_sorted key a (b - a) (b - a)
    (heapBuild key a (b - a) (((b - a) - 1) / 2 + 1) f) (le_refl (b - a)) hbuild
    (fun i j h1 h2 h3 => by omega) (fun i j h1 h2 h3 => by omega)
    (x - a) (y - a) (by omega) (by omega)
  have hx : a + (x - a) = x := by omega
  have hy : a + (y - a) = y := by omega
  rw [hx, hy] at h
  exact h

theorem medianOfThree_le_aux {α : Type} (key : α → Int) (g : Nat → α) (m1 m0 m2 : Nat)
    (h01 : m0 ≠ m1) (h02 : m0 ≠ m2) (h12 : m1 ≠ m2)
    (hg : key (g m0) ≤ key (g m1)) :
    key ((if key (g m2) < key (g m1) then
            (if key (swapF g m2 m1 m1) < key (swapF g m2 m1 m0) then
              swapF (swapF g m2 m1) m1 m0 else swapF g m2 m1)
          else g) m1) ≤
    key ((if key (g m2) < key (g m1) then
            (if key (swapF g m2 m1 m1) < key (swapF g m2 m1 m0) then
              swapF (swapF g m2 m1) m1 m0 else swapF g m2 m1)
          else g) m2) := by
  by_cases hB : key (g m2) < key (g m1)
  · rw [if_pos hB]
    by_cases hC : key (swapF g m2 m1 m1) < key (swapF g m2 m1 m0)
    · rw [if_pos hC, swapF_fst, swapF_ne g h02 h01,
        swapF_ne (swapF g m2 m1) (Ne.symm h12) (Ne.symm h02), swapF_fst]
      exact hg
    · rw [if_neg hC, swapF_snd g h12, swapF_fst]
      exact le_of_lt hB
  · rw [if_neg hB]
    exact le_of_not_lt hB

theorem medianOfThree_le {α : Type} (key : α → Int) (f : Nat → α) (m1 m0 m2 : Nat)
    (h01 : m0 ≠ m1) (h02 : m0 ≠ m2) (h12 : m1 ≠ m2) :
    key (medianOfThree key f m1 m0 m2 m1) ≤ key (medianOfThree key f m1 m0 m2 m2) := by
  unfold medianOfThree
  dsimp only
  apply medianOfThree_le_aux key _ m1 m0 m2 h01 h02 h12
  split_ifs with hA
  · rw [swapF_snd f h01, swapF_fst]
    exact le_of_lt hA
  · exact le_of_not_lt hA

theorem dpLoop1_all_lt {α : Type} (key : α → Int) (p c : Nat) :
    ∀ (fuel a : Nat) (f : Nat → α) (i : Nat), a ≤ i → i < dpLoop1 key p c fuel a f →
      key (f i) < key (f p) := by
  intro fuel
  induction fuel with
  | zero =>
    intro a f i hai hlt
    rw [dpLoop1] at hlt
    omega
  | succ fuel ih =>
    intro a f i hai hlt
    rw [dpLoop1] at hlt
    by_cases h : a < c ∧ key (f a) < key (f p)
    · rw [if_pos h] at hlt
      rcases Nat.eq_or_lt_of_le hai with heq | hlt2
      · exact heq ▸ h.2
      · exact ih (a+1) f i hlt2 hlt
    · rw [if_neg h] at hlt
      omega

theorem dpScanB_all_le {α : Type} (key : α → Int) (p c : Nat) :
    ∀ (fuel b : Nat) (f : Nat → α) (i : Nat), b ≤ i → i < dpScanB key p c fuel b f →
      ¬key (f p) < key (f i) := by
  intro fuel
  induction fuel with
  | zero =>
    intro b f i hbi hlt
    rw [dpScanB] at hlt
    omega
  | succ fuel ih =>
    intro b f i hbi hlt
    rw [dpScanB] at hlt
    by_cases h : b < c ∧ ¬key (f p) < key (f b)
    · rw [if_pos h] at hlt
      rcases Nat.eq_or_lt_of_le hbi with heq | hlt2
      · exact heq ▸ h.2
      · exact ih (b+1) f i hlt2 hlt
    · rw [if_neg h] at hlt
      omega

theorem dpScanC_all_gt {α : Type} (key : α → Int) (p b : Nat) :
    ∀ (c : Nat) (f : Nat → α) (i : Nat), dpScanC key p b c f ≤ i → i < c →
      key (f p) < key (f i) := by
  intro c
  induction c with
  | zero =>
    intro f i h1 h2
    omega
  | succ c ih =>
    intro f i h1 h2
    rw [dpScanC] at h1
    by_cases h : b < c + 1 ∧ key (f p) < key (f c)
    · rw [if_pos h] at h1
      rcases Nat.lt_or_ge i c with hic | hic
      · exact ih f i h1 hic
      · have heq : i = c := by omega
        exact heq ▸ h.2
    · rw [if_neg h] at h1
      omega

theorem dpProtScanB_all_ge {α : Type} (key : α → Int) (p a : Nat) :
    ∀ (b : Nat) (f : Nat → α) (i : Nat), dpProtScanB key p a b f ≤ i → i < b →
      ¬key (f i) < key (f p) := by
  intro b
  induction b with
  | zero =>
    intro f i h1 h2
    omega
  | succ b ih =>
    intro f i h1 h2
    rw [dpProtScanB] at h1
    by_cases h : a < b + 1 ∧ ¬key (f b) < key (f p)
    · rw [if_pos h] at h1
      rcases Nat.lt_or_ge i b with hib | hib
      · exact ih f i h1 hib
      · have heq : i = b := by omega
        exact heq ▸ h.2
    · rw [if_neg h] at h1
      omega

theorem dpProtScanB_stop {α : Type} (key : α → Int) (p a : Nat) :
    ∀ (b : Nat) (f : Nat → α), a < dpProtScanB key p a b f →
      key (f (dpProtScanB key p a b f - 1)) < key (f p) := by
  intro b
  induction b with
  | zero =>
    intro f hlt
    rw [dpProtScanB] at hlt
    omega
  | succ b ih =>
    intro f hlt
    rw [dpProtScanB] at hlt ⊢
    by_cases h : a < b + 1 ∧ ¬key (f b) < key (f p)
    · rw [if_pos h] at hlt ⊢
      exact ih f hlt
    · rw [if_neg h] at hlt ⊢
      push_neg at h
      simpa using h hlt

theorem dpProtScanA_stop {α : Type} (key : α → Int) (p b : Nat) :
    ∀ (fuel a : Nat) (f : Nat → α), b ≤ a + fuel → dpProtScanA key p b fuel a f < b →
      ¬key (f (dpProtScanA key p b fuel a f)) < key (f p) := by
  intro fuel
  induction fuel with
  | zero =>
    intro a f hfuel hlt
    rw [dpProtScanA] at hlt ⊢
    omega
  | succ fuel ih =>
    intro a f hfuel hlt
    rw [dpProtScanA] at hlt ⊢
    by_cases h : a < b ∧ key (f a) < key (f p)
    · rw [if_pos h] at hlt ⊢
      exact ih (a+1) f (by omega) hlt
    · rw [if_neg h] at hlt ⊢
      push_neg at h
      exact fun hcon => absurd (h hlt) (by omega)

theorem dpMainLoop_inv {α : Type} (key : α → Int) (lo hi : Nat) (pv : Int) :
    ∀ (fuel b c : Nat) (f : Nat → α),
      lo + 1 ≤ b → b ≤ c → c ≤ hi - 1 → c < fuel →
      key (f lo) = pv →
      (∀ i, lo + 1 ≤ i → i < b → key (f i) ≤ pv) →
      (∀ i, c ≤ i → i < hi - 1 → pv < key (f i)) →
      pv ≤ key (f (hi - 1)) →
      key ((dpMainLoop key lo fuel b c f).2.2 lo) = pv ∧
      (∀ i, lo + 1 ≤ i → i < (dpMainLoop key lo fuel b c f).1 →
        key ((dpMainLoop key lo fuel b c f).2.2 i) ≤ pv) ∧
      (∀ i, (dpMainLoop key lo fuel b c f).2.1 ≤ i → i < hi - 1 →
        pv < key ((dpMainLoop key lo fuel b c f).2.2 i)) ∧
      pv ≤ key ((dpMainLoop key lo fuel b c f).2.2 (hi - 1)) := by
  intro fuel
  induction fuel with
  | zero => intro b c f hb hbc hc hfuel hpv h1 h2 h3; omega
  | succ fuel ih =>
    intro b c f hb hbc hc hfuel hpv h1 h2 h3
    rw [dpMainLoop]
    have hb1ge : b ≤ dpScanB key lo c c b f := dpScanB_ge key lo c c b f
    have hb1le : dpScanB key lo c c b f ≤ max b c := dpScanB_le_max key lo c c b f
    have hc1le : dpScanC key lo (dpScanB key lo c c b f) c f ≤ c :=
      dpScanC_le key lo (dpScanB key lo c c b f) c f
    have hc1ge : dpScanB key lo c c b f ≤ dpScanC key lo (dpScanB key lo c c b f) c f :=
      dpScanC_ge key lo (dpScanB key lo c c b f) c f (by omega)
    have hBall : ∀ i, b ≤ i → i < dpScanB key lo c c b f → key (f i) ≤ pv := by
      intro i h4 h5
      have h6 := dpScanB_all_le key lo c c b f i h4 h5
      rw [hpv] at h6
      omega
    have hCall : ∀ i, dpScanC key lo (dpScanB key lo c c b f) c f ≤ i → i < c →
        pv < key (f i) := by
      intro i h4 h5
      have h6 := dpScanC_all_gt key lo (dpScanB key lo c c b f) c f i h4 h5
      rw [hpv] at h6
      exact h6
    split_ifs with hstop
    · refine ⟨hpv, ?_, ?_, h3⟩
      · intro i hi1 hi2
        rcases Nat.lt_or_ge i b with h | h
        · exact h1 i hi1 h
        · exact hBall i h hi2
      · intro i hi1 hi2
        rcases Nat.lt_or_ge i c with h | h
        · exact hCall i hi1 h
        · exact h2 i h hi2
    · push_neg at hstop
      have hstopB : pv < key (f (dpScanB key lo c c b f)) := by
        have h6 := dpScanB_stop key lo c c b f (by omega) (by omega)
        rw [hpv] at h6
        exact h6
      have hstopC : key (f (dpScanC key lo (dpScanB key lo c c b f) c f - 1)) ≤ pv := by
        have h6 := dpScanC_stop key lo (dpScanB key lo c c b f) c f (by omega)
        rw [hpv] at h6
        omega
      have hadj : dpScanB key lo c c b f + 2 ≤
          dpScanC key lo (dpScanB key lo c c b f) c f := by
        rcases Nat.lt_or_ge (dpScanB key lo c c b f + 1)
            (dpScanC key lo (dpScanB key lo c c b f) c f) with hx | hx
        · omega
        · have heq1 : dpScanC key lo (dpScanB key lo c c b f) c f - 1 =
              dpScanB key lo c c b f := by omega
          rw [heq1] at hstopC
          omega
      refine ih (dpScanB key lo c c b f + 1)
        (dpScanC key lo (dpScanB key lo c c b f) c f - 1)
        (swapF f (dpScanB key lo c c b f) (dpScanC key lo (dpScanB key lo c c b f) c f - 1))
        (by omega) (by omega) (by omega) (by omega) ?_ ?_ ?_ ?_
      · rw [swapF_ne f (by omega) (by omega)]
        exact hpv
      · intro i hi1 hi2
        by_cases hib : i = dpScanB key lo c c b f
        · rw [hib, swapF_fst]
          exact hstopC
        · rw [swapF_ne f (by omega) (by omega)]
          rcases Nat.lt_or_ge i b with h | h
          · exact h1 i hi1 h
          · exact hBall i h (by omega)
      · intro i hi1 hi2
        by_cases hic : i = dpScanC key lo (dpScanB key lo c c b f) c f - 1
        · rw [hic, swapF_snd f (by omega)]
          exact hstopB
        · rw [swapF_ne f (by omega) (by omega)]
          rcases Nat.lt_or_ge i c with h | h
          · exact hCall i (by omega) h
          · exact h2 i h hi2
      · rw [swapF_ne f (by omega) (by omega)]
        exact h3

theorem dpDupsTest3_inv {α : Type} (key : α → Int) (lo m b3 c2 : Nat) (f4 : Nat → α)
    (d2 : Nat) (pv : Int) (hi : Nat)
    (hm : lo + 1 ≤ m) (hmb : m + 2 ≤ b3) (hbc : b3 ≤ c2) (hc : c2 ≤ hi - 1)
    (hpv : key (f4 lo) = pv)
    (h1 : ∀ i, lo + 1 ≤ i → i < b3 → key (f4 i) ≤ pv)
    (hM : ∀ i, b3 ≤ i → i < c2 → key (f4 i) = pv)
    (h2 : ∀ i, c2 ≤ i → i < hi - 1 → pv < key (f4 i))
    (h3 : pv ≤ key (f4 (hi - 1))) :
    key ((dpDupsTest3 key lo m b3 c2 f4 d2).2.2.2 lo) = pv ∧
    (∀ i, lo + 1 ≤ i → i < (dpDupsTest3 key lo m b3 c2 f4 d2).2.1 →
      key ((dpDupsTest3 key lo m b3 c2 f4 d2).2.2.2 i) ≤ pv) ∧
    (∀ i, (dpDupsTest3 key lo m b3 c2 f4 d2).2.1 ≤ i → i < c2 →
      key ((dpDupsTest3 key lo m b3 c2 f4 d2).2.2.2 i) = pv) ∧
    (∀ i, c2 ≤ i → i < hi - 1 → pv < key ((dpDupsTest3 key lo m b3 c2 f4 d2).2.2.2 i)) ∧
    pv ≤ key ((dpDupsTest3 key lo m b3 c2 f4 d2).2.2.2 (hi - 1)) := by
  unfold dpDupsTest3
  split_ifs with ht
  · dsimp only
    exact ⟨hpv, h1, hM, h2, h3⟩
  · dsimp only
    rw [hpv] at ht
    have hmeq : key (f4 m) = pv :=
      le_antisymm (h1 m (by omega) (by omega)) (le_of_not_lt ht)
    refine ⟨?_, ?_, ?_, ?_, ?_⟩
    · rw [swapF_ne f4 (by omega) (by omega)]
      exact hpv
    · intro i hi1 hi2
      by_cases him : i = m
      · rw [him, swapF_fst]
        exact h1 (b3-1) (by omega) (by omega)
      · rw [swapF_ne f4 him (by omega)]
        exact h1 i hi1 (by omega)
    · intro i hi1 hi2
      by_cases hib : i = b3-1
      · rw [hib, swapF_snd f4 (by omega)]
        exact hmeq
      · rw [swapF_ne f4 (by omega) (by omega)]
        exact hM i (by omega) hi2
    · intro i hi1 hi2
      rw [swapF_ne f4 (by omega) (by omega)]
      exact h2 i hi1 hi2
    · rw [swapF_ne f4 (by omega) (by omega)]
      exact h3

theorem dpDupsTest2_inv {α : Type} (key : α → Int) (lo m b1 c2 : Nat) (f4 : Nat → α)
    (d1 : Nat) (pv : Int) (hi : Nat)
    (hm : lo + 1 ≤ m) (hmb : m + 3 ≤ b1) (hbc : b1 ≤ c2) (hc : c2 ≤ hi - 1)
    (hpv : key (f4 lo) = pv)
    (h1 : ∀ i, lo + 1 ≤ i → i < b1 → key (f4 i) ≤ pv)
    (hM : ∀ i, b1 ≤ i → i < c2 → key (f4 i) = pv)
    (h2 : ∀ i, c2 ≤ i → i < hi - 1 → pv < key (f4 i))
    (h3 : pv ≤ key (f4 (hi - 1))) :
    key ((dpDupsTest2 key lo m b1 c2 f4 d1).2.2.2 lo) = pv ∧
    (∀ i, lo + 1 ≤ i → i < (dpDupsTest2 key lo m b1 c2 f4 d1).2.1 →
      key ((dpDupsTest2 key lo m b1 c2 f4 d1).2.2.2 i) ≤ pv) ∧
    (∀ i, (dpDupsTest2 key lo m b1 c2 f4 d1).2.1 ≤ i → i < c2 →
      key ((dpDupsTest2 key lo m b1 c2 f4 d1).2.2.2 i) = pv) ∧
    (∀ i, c2 ≤ i → i < hi - 1 → pv < key ((dpDupsTest2 key lo m b1 c2 f4 d1).2.2.2 i)) ∧
    pv ≤ key ((dpDupsTest2 key lo m b1 c2 f4 d1).2.2.2 (hi - 1)) := by
  unfold dpDupsTest2
  split_ifs with ht
  · exact dpDupsTest3_inv key lo m b1 c2 f4 d1 pv hi hm (by omega) hbc hc hpv h1 hM h2 h3
  · rw [hpv] at ht
    have hbeq : key (f4 (b1-1)) = pv :=
      le_antisymm (h1 (b1-1) (by omega) (by omega)) (le_of_not_lt ht)
    refine dpDupsTest3_inv key lo m (b1-1) c2 f4 (d1+1) pv hi hm (by omega) (by omega) hc
      hpv (fun i ha hb => h1 i ha (by omega)) ?_ h2 h3
    intro i ha hb
    rcases Nat.eq_or_lt_of_le ha with heq | hlt
    · exact heq ▸ hbeq
    · exact hM i (by omega) hb

theorem dpDupsTests_inv {α : Type} (key : α → Int) (lo hi m mid : Nat) (f3 : Nat → α)
    (pv : Int)
    (hm : lo + 1 ≤ m) (hmb : m + 5 ≤ mid) (hc5 : mid + 2 ≤ hi)
    (hpv : key (f3 lo) = pv)
    (h1 : ∀ i, lo + 1 ≤ i → i < mid → key (f3 i) ≤ pv)
    (h2 : ∀ i, mid ≤ i → i < hi - 1 → pv < key (f3 i))
    (h3 : pv ≤ key (f3 (hi - 1))) :
    key ((dpDupsTests key lo hi m mid mid f3).2.2.2 lo) = pv ∧
    (∀ i, lo + 1 ≤ i → i < (dpDupsTests key lo hi m mid mid f3).2.1 →
      key ((dpDupsTests key lo hi m mid mid f3).2.2.2 i) ≤ pv) ∧
    (∀ i, (dpDupsTests key lo hi m mid mid f3).2.1 ≤ i →
      i < (dpDupsTests key lo hi m mid mid f3).2.2.1 →
      key ((dpDupsTests key lo hi m mid mid f3).2.2.2 i) = pv) ∧
    (∀ i, (dpDupsTests key lo hi m mid mid f3).2.2.1 ≤ i → i < hi - 1 →
      pv < key ((dpDupsTests key lo hi m mid mid f3).2.2.2 i)) ∧
    pv ≤ key ((dpDupsTests key lo hi m mid mid f3).2.2.2 (hi - 1)) ∧
    mid ≤ (dpDupsTests key lo hi m mid mid f3).2.2.1 ∧
    (dpDupsTests key lo hi m mid mid f3).2.2.1 ≤ hi - 1 := by
  unfold dpDupsTests
  split_ifs with ht
  · have hceq := dpDupsTest2_c_eq key lo m mid mid f3 0
    have hinv := dpDupsTest2_inv key lo m mid mid f3 0 pv hi hm (by omega) (le_refl mid)
      (by omega) hpv h1 (fun i ha hb => by omega) h2 h3
    rw [hceq]
    exact ⟨hinv.1, hinv.2.1, fun i ha hb => hinv.2.2.1 i ha (by omega),
      fun i ha hb => hinv.2.2.2.1 i (by omega) hb, hinv.2.2.2.2, by omega, by omega⟩
  · rw [hpv] at ht
    have heq : key (f3 (hi-1)) = pv := le_antisymm (le_of_not_lt ht) h3
    have hceq := dpDupsTest2_c_eq key lo m mid (mid + 1) (swapF f3 mid (hi - 1)) 1
    have hinv := dpDupsTest2_inv key lo m mid (mid + 1) (swapF f3 mid (hi - 1)) 1 pv hi
      hm (by omega) (by omega) (by omega) ?_ ?_ ?_ ?_ ?_
    · rw [hceq]
      exact ⟨hinv.1, hinv.2.1, fun i ha hb => hinv.2.2.1 i ha (by omega),
        fun i ha hb => hinv.2.2.2.1 i (by omega) hb, hinv.2.2.2.2, by omega, by omega⟩
    · rw [swapF_ne f3 (by omega) (by omega)]
      exact hpv
    · intro i ha hb
      rw [swapF_ne f3 (by omega) (by omega)]
      exact h1 i ha hb
    · intro i ha hb
      have hieq : i = mid := by omega
      rw [hieq, swapF_fst]
      exact heq
    · intro i ha hb
      rw [swapF_ne f3 (by omega) (by omega)]
      exact h2 i (by omega) hb
    · rw [swapF_snd f3 (by omega)]
      exact le_of_lt (h2 mid (le_refl mid) (by omega))

theorem dpDups_inv {α : Type} (key : α → Int) (lo hi m mid : Nat) (f3 : Nat → α) (pv : Int)
    (hm : m = (lo + hi) / 2) (h12 : lo + 12 < hi)
    (hmid1 : lo + 1 ≤ mid) (hmid2 : mid ≤ hi - 1)
    (hpv : key (f3 lo) = pv)
    (h1 : ∀ i, lo + 1 ≤ i → i < mid → key (f3 i) ≤ pv)
    (h2 : ∀ i, mid ≤ i → i < hi - 1 → pv < key (f3 i))
    (h3 : pv ≤ key (f3 (hi - 1))) :
    key ((dpDups key lo hi m mid mid f3).2.2.2 lo) = pv ∧
    (∀ i, lo + 1 ≤ i → i < (dpDups key lo hi m mid mid f3).2.1 →
      key ((dpDups key lo hi m mid mid f3).2.2.2 i) ≤ pv) ∧
    (∀ i, (dpDups key lo hi m mid mid f3).2.1 ≤ i →
      i < (dpDups key lo hi m mid mid f3).2.2.1 →
      key ((dpDups key lo hi m mid mid f3).2.2.2 i) = pv) ∧
    (∀ i, (dpDups key lo hi m mid mid f3).2.2.1 ≤ i → i < hi - 1 →
      pv < key ((dpDups key lo hi m mid mid f3).2.2.2 i)) ∧
    pv ≤ key ((dpDups key lo hi m mid mid f3).2.2.2 (hi - 1)) ∧
    mid ≤ (dpDups key lo hi m mid mid f3).2.2.1 ∧
    (dpDups key lo hi m mid mid f3).2.2.1 ≤ hi - 1 := by
  unfold dpDups
  split_ifs with hp1 hp2
  · dsimp only
    exact ⟨hpv, h1, fun i ha hb => by omega, h2, h3, le_refl mid, hmid2⟩
  · exact dpDupsTests_inv key lo hi m mid f3 pv (by omega) (by omega) (by omega)
      hpv h1 h2 h3
  · dsimp only
    exact ⟨hpv, h1, fun i ha hb => by omega, h2, h3, le_refl mid, hmid2⟩

theorem dpProtLoop_inv {α : Type} (key : α → Int) (lo c2 : Nat) (pv : Int) :
    ∀ (fuel a b : Nat) (f : Nat → α),
      lo + 1 ≤ a → lo + 1 ≤ b → b ≤ c2 → b < fuel →
      key (f lo) = pv →
      (∀ i, lo + 1 ≤ i → i < b → key (f i) ≤ pv) →
      (∀ i, b ≤ i → i < c2 → key (f i) = pv) →
      key ((dpProtLoop key lo fuel a b f).2.2 lo) = pv ∧
      (∀ i, lo + 1 ≤ i → i < (dpProtLoop key lo fuel a b f).2.1 →
        key ((dpProtLoop key lo fuel a b f).2.2 i) ≤ pv) ∧
      (∀ i, (dpProtLoop key lo fuel a b f).2.1 ≤ i → i < c2 →
        key ((dpProtLoop key lo fuel a b f).2.2 i) = pv) := by
  intro fuel
  induction fuel with
  | zero => intro a b f ha hb hbc hfuel hpv h1 hM; omega
  | succ fuel ih =>
    intro a b f ha hb hbc hfuel hpv h1 hM
    rw [dpProtLoop]
    have hb1le : dpProtScanB key lo a b f ≤ b := dpProtScanB_le key lo a b f
    have hb1ge : lo + 1 ≤ dpProtScanB key lo a b f := dpProtScanB_ge2 key lo a b f ha hb
    have ha1ge : a ≤ dpProtScanA key lo (dpProtScanB key lo a b f)
        (dpProtScanB key lo a b f) a f :=
      dpProtScanA_ge key lo (dpProtScanB key lo a b f) (dpProtScanB key lo a b f) a f
    have hBall : ∀ i, dpProtScanB key lo a b f ≤ i → i < b → key (f i) = pv := by
      intro i h4 h5
      have h6 := dpProtScanB_all_ge key lo a b f i h4 h5
      rw [hpv] at h6
      exact le_antisymm (h1 i (by omega) h5) (le_of_not_lt h6)
    split_ifs with hstop
    · refine ⟨hpv, ?_, ?_⟩
      · intro i hi1 hi2
        have hi2b : i < dpProtScanB key lo a b f := hi2
        exact h1 i hi1 (by omega)
      · intro i hi1 hi2
        have hi1b : dpProtScanB key lo a b f ≤ i := hi1
        rcases Nat.lt_or_ge i b with h | h
        · exact hBall i hi1b h
        · exact hM i h hi2
    · push_neg at hstop
      have hstopA : ¬key (f (dpProtScanA key lo (dpProtScanB key lo a b f)
          (dpProtScanB key lo a b f) a f)) < pv := by
        have h6 := dpProtScanA_stop key lo (dpProtScanB key lo a b f)
          (dpProtScanB key lo a b f) a f (by omega) (by omega)
        rw [hpv] at h6
        exact h6
      have hstopB : key (f (dpProtScanB key lo a b f - 1)) < pv := by
        have h6 := dpProtScanB_stop key lo a b f (by omega)
        rw [hpv] at h6
        exact h6
      have haeq : key (f (dpProtScanA key lo (dpProtScanB key lo a b f)
          (dpProtScanB key lo a b f) a f)) = pv :=
        le_antisymm (h1 _ (by omega) (by omega)) (le_of_not_lt hstopA)
      have hadj : dpProtScanA key lo (dpProtScanB key lo a b f)
          (dpProtScanB key lo a b f) a f + 2 ≤ dpProtScanB key lo a b f := by
        rcases Nat.lt_or_ge (dpProtScanA key lo (dpProtScanB key lo a b f)
            (dpProtScanB key lo a b f) a f + 1) (dpProtScanB key lo a b f) with hx | hx
        · omega
        · have heq1 : dpProtScanB key lo a b f - 1 = dpProtScanA key lo
              (dpProtScanB key lo a b f) (dpProtScanB key lo a b f) a f := by omega
          rw [heq1] at hstopB
          omega
      refine ih (dpProtScanA key lo (dpProtScanB key lo a b f)
          (dpProtScanB key lo a b f) a f + 1) (dpProtScanB key lo a b f - 1)
        (swapF f (dpProtScanA key lo (dpProtScanB key lo a b f)
          (dpProtScanB key lo a b f) a f) (dpProtScanB key lo a b f - 1))
        (by omega) (by omega) (by omega) (by omega) ?_ ?_ ?_
      · rw [swapF_ne f (by omega) (by omega)]
        exact hpv
      · intro i hi1 hi2
        by_cases hia : i = dpProtScanA key lo (dpProtScanB key lo a b f)
            (dpProtScanB key lo a b f) a f
        · rw [hia, swapF_fst]
          exact le_of_lt hstopB
        · rw [swapF_ne f (by omega) (by omega)]
          exact h1 i hi1 (by omega)
      · intro i hi1 hi2
        by_cases hib : i = dpProtScanB key lo a b f - 1
        · rw [hib, swapF_snd f (by omega)]
          exact haeq
        · rw [swapF_ne f (by omega) (by omega)]
          rcases Nat.lt_or_ge i b with h | h
          · exact hBall i (by omega) h
          · exact hM i h hi2

theorem dpFinish_swap_part {α : Type} (key : α → Int) (lo bf c2 : Nat) (g : Nat → α)
    (pv : Int) (hi : Nat)
    (hb1 : lo + 1 ≤ bf) (hbc : bf ≤ c2) (hc : c2 ≤ hi - 1)
    (hpv : key (g lo) = pv)
    (h1 : ∀ i, lo + 1 ≤ i → i < bf → key (g i) ≤ pv)
    (hM : ∀ i, bf ≤ i → i < c2 → key (g i) = pv)
    (h2 : ∀ i, c2 ≤ i → i < hi - 1 → pv < key (g i))
    (h3 : pv ≤ key (g (hi - 1))) :
    (∀ i, lo ≤ i → i < bf - 1 → key (swapF g lo (bf - 1) i) ≤ pv) ∧
    (∀ i, bf - 1 ≤ i → i < c2 → key (swapF g lo (bf - 1) i) = pv) ∧
    (∀ i, c2 ≤ i → i < hi → pv ≤ key (swapF g lo (bf - 1) i)) := by
  refine ⟨?_, ?_, ?_⟩
  · intro i hi1 hi2
    by_cases hil : i = lo
    · rw [hil, swapF_fst]
      exact h1 (bf-1) (by omega) (by omega)
    · rw [swapF_ne g hil (by omega)]
      exact h1 i (by omega) (by omega)
  · intro i hi1 hi2
    by_cases hib : i = bf - 1
    · by_cases hbl : bf - 1 = lo
      · rw [hib, hbl, swapF_fst]
        exact hpv
      · rw [hib, swapF_snd g hbl]
        exact hpv
    · rw [swapF_ne g (by omega) (by omega)]
      rcases Nat.lt_or_ge i bf with hx | hx
      · omega
      · exact hM i hx hi2
  · intro i hi1 hi2
    rw [swapF_ne g (by omega) (by omega)]
    rcases Nat.lt_or_ge i (hi-1) with hx | hx
    · exact le_of_lt (h2 i hi1 hx)
    · have hieq : i = hi - 1 := by omega
      rw [hieq]
      exact h3

theorem dpFinish_partition {α : Type} (key : α → Int) (lo a0 : Nat)
    (t : Bool × Nat × Nat × (Nat → α)) (pv : Int) (hi : Nat)
    (ha0 : lo + 1 ≤ a0)
    (hb1 : lo + 1 ≤ t.2.1) (hbc : t.2.1 ≤ t.2.2.1) (hc : t.2.2.1 ≤ hi - 1)
    (hpv : key (t.2.2.2 lo) = pv)
    (h1 : ∀ i, lo + 1 ≤ i → i < t.2.1 → key (t.2.2.2 i) ≤ pv)
    (hM : ∀ i, t.2.1 ≤ i → i < t.2.2.1 → key (t.2.2.2 i) = pv)
    (h2 : ∀ i, t.2.2.1 ≤ i → i < hi - 1 → pv < key (t.2.2.2 i))
    (h3 : pv ≤ key (t.2.2.2 (hi - 1))) :
    (∀ i, lo ≤ i → i < (dpFinish key lo a0 t).1 →
      key ((dpFinish key lo a0 t).2.2 i) ≤ pv) ∧
    (∀ i, (dpFinish key lo a0 t).1 ≤ i → i < (dpFinish key lo a0 t).2.1 →
      key ((dpFinish key lo a0 t).2.2 i) = pv) ∧
    (∀ i, (dpFinish key lo a0 t).2.1 ≤ i → i < hi →
      pv ≤ key ((dpFinish key lo a0 t).2.2 i)) := by
  unfold dpFinish
  split_ifs with hprot
  · dsimp only
    have hinv := dpProtLoop_inv key lo t.2.2.1 pv (t.2.1+1) a0 t.2.1 t.2.2.2
      ha0 hb1 hbc (by omega) hpv h1 hM
    have hble : (dpProtLoop key lo (t.2.1+1) a0 t.2.1 t.2.2.2).2.1 ≤ t.2.1 :=
      dpProtLoop_b_le key lo (t.2.1+1) a0 t.2.1 t.2.2.2
    have hbge : lo + 1 ≤ (dpProtLoop key lo (t.2.1+1) a0 t.2.1 t.2.2.2).2.1 :=
      dpProtLoop_b_ge key lo (t.2.1+1) a0 t.2.1 t.2.2.2 ha0 hb1
    have hps : PermSeg lo t.2.2.1 t.2.2.2
        (dpProtLoop key lo (t.2.1+1) a0 t.2.1 t.2.2.2).2.2 :=
      dpProtLoop_ps key lo (t.2.1+1) a0 t.2.1 t.2.2.2 (by omega) hbc
    have hout : ∀ k, t.2.2.1 ≤ k →
        (dpProtLoop key lo (t.2.1+1) a0 t.2.1 t.2.2.2).2.2 k = t.2.2.2 k :=
      fun k hk => ps_eq_outside hps k (Or.inr hk)
    refine dpFinish_swap_part key lo (dpProtLoop key lo (t.2.1+1) a0 t.2.1 t.2.2.2).2.1
      t.2.2.1 (dpProtLoop key lo (t.2.1+1) a0 t.2.1 t.2.2.2).2.2 pv hi hbge (by omega) hc
      hinv.1 hinv.2.1 hinv.2.2 ?_ ?_
    · intro i ha2 hb2
      rw [hout i (by omega)]
      exact h2 i ha2 hb2
    · rw [hout (hi-1) (by omega)]
      exact h3
  · dsimp only
    exact dpFinish_swap_part key lo t.2.1 t.2.2.1 t.2.2.2 pv hi hb1 hbc hc hpv h1 hM h2 h3

theorem doPivotF_partition {α : Type} (key : α → Int) (f0 : Nat → α) (lo hi : Nat)
    (h : lo + 12 < hi) :
    ∃ pv : Int,
      (∀ i, lo ≤ i → i < (doPivotF key f0 lo hi).1 →
        key ((doPivotF key f0 lo hi).2.2 i) ≤ pv) ∧
      (∀ i, (doPivotF key f0 lo hi).1 ≤ i → i < (doPivotF key f0 lo hi).2.1 →
        key ((doPivotF key f0 lo hi).2.2 i) = pv) ∧
      (∀ i, (doPivotF key f0 lo hi).2.1 ≤ i → i < hi →
        pv ≤ key ((doPivotF key f0 lo hi).2.2 i)) := by
  rw [doPivotF_eq]
  refine ⟨key (dpMedians key f0 lo hi lo), ?_⟩
  have ha0ge : lo + 1 ≤ dpA0 key f0 lo hi :=
    dpLoop1_ge key lo (hi-1) (hi-1) (lo+1) (dpMedians key f0 lo hi)
  have ha0le : dpA0 key f0 lo hi ≤ hi - 1 := by
    have h5 := dpLoop1_le_max key lo (hi-1) (hi-1) (lo+1) (dpMedians key f0 lo hi)
    show dpLoop1 key lo (hi-1) (hi-1) (lo+1) (dpMedians key f0 lo hi) ≤ hi - 1
    omega
  have hmedle : key (dpMedians key f0 lo hi lo) ≤ key (dpMedians key f0 lo hi (hi-1)) := by
    unfold dpMedians
    dsimp only
    exact medianOfThree_le key _ lo ((lo+hi)/2) (hi-1) (by omega) (by omega) (by omega)
  have hloop1 : ∀ i, lo + 1 ≤ i → i < dpA0 key f0 lo hi →
      key (dpMedians key f0 lo hi i) ≤ key (dpMedians key f0 lo hi lo) :=
    fun i ha hb => le_of_lt
      (dpLoop1_all_lt key lo (hi-1) (hi-1) (lo+1) (dpMedians key f0 lo hi) i ha hb)
  have hmain := dpMainLoop_inv key lo hi (key (dpMedians key f0 lo hi lo)) hi
    (dpA0 key f0 lo hi) (hi-1) (dpMedians key f0 lo hi)
    ha0ge (by omega) (le_refl (hi-1)) (by omega) rfl hloop1
    (fun i ha hb => by omega) hmedle
  have hK0 : key ((dpR key f0 lo hi).2.2 lo) = key (dpMedians key f0 lo hi lo) := hmain.1
  have hK1 : ∀ i, lo + 1 ≤ i → i < (dpR key f0 lo hi).1 →
      key ((dpR key f0 lo hi).2.2 i) ≤ key (dpMedians key f0 lo hi lo) := hmain.2.1
  have hK2 : ∀ i, (dpR key f0 lo hi).2.1 ≤ i → i < hi - 1 →
      key (dpMedians key f0 lo hi lo) < key ((dpR key f0 lo hi).2.2 i) := hmain.2.2.1
  have hK3 : key (dpMedians key f0 lo hi lo) ≤ key ((dpR key f0 lo hi).2.2 (hi-1)) :=
    hmain.2.2.2
  have hbge : dpA0 key f0 lo hi ≤ (dpR key f0 lo hi).1 :=
    dpMainLoop_b_ge key lo hi (dpA0 key f0 lo hi) (hi-1) (dpMedians key f0 lo hi)
  have hble : (dpR key f0 lo hi).1 ≤ hi - 1 := by
    have h5 := dpMainLoop_fst_le key lo hi (dpA0 key f0 lo hi) (hi-1)
      (dpMedians key f0 lo hi)
    show (dpMainLoop key lo hi (dpA0 key f0 lo hi) (hi-1) (dpMedians key f0 lo hi)).1 ≤
      hi - 1
    omega
  have hbc : (dpR key f0 lo hi).1 = (dpR key f0 lo hi).2.1 :=
    dpMainLoop_bc_eq key lo hi (dpA0 key f0 lo hi) (hi-1) (dpMedians key f0 lo hi)
      (by omega) (by omega)
  have hteq : dpT key f0 lo hi = dpDups key lo hi ((lo + hi) / 2) (dpR key f0 lo hi).1
      (dpR key f0 lo hi).1 (dpR key f0 lo hi).2.2 := by
    unfold dpT
    rw [← hbc]
  rw [hteq]
  have hdups := dpDups_inv key lo hi ((lo + hi) / 2) (dpR key f0 lo hi).1
    (dpR key f0 lo hi).2.2 (key (dpMedians key f0 lo hi lo)) rfl h (by omega) (by omega)
    hK0 hK1 (fun i ha hb => hK2 i (by omega) hb) hK3
  have hb2le := dpDups_b_le key lo hi ((lo + hi) / 2) (dpR key f0 lo hi).1
    (dpR key f0 lo hi).1 (dpR key f0 lo hi).2.2
  have hb2ge := dpDups_b_ge key lo hi ((lo + hi) / 2) (dpR key f0 lo hi).1
    (dpR key f0 lo hi).1 (dpR key f0 lo hi).2.2 rfl h (by omega)
  exact dpFinish_partition key lo (dpA0 key f0 lo hi)
    (dpDups key lo hi ((lo + hi) / 2) (dpR key f0 lo hi).1 (dpR key f0 lo hi).1
      (dpR key f0 lo hi).2.2)
    (key (dpMedians key f0 lo hi lo)) hi ha0ge hb2ge (by omega) hdups.2.2.2.2.2.2
    hdups.1 hdups.2.1 hdups.2.2.1 hdups.2.2.2.1 hdups.2.2.2.2.1

theorem doPivotF_snd_le {α : Type} (key : α → Int) (f0 : Nat → α) (lo hi : Nat)
    (h : lo + 12 < hi) : (doPivotF key f0 lo hi).2.1 ≤ hi := by
  rw [doPivotF_eq, dpFinish_c_eq]
  have h1 := dpDups_c_le key lo hi ((lo + hi) / 2) (dpR key f0 lo hi).1
    (dpR key f0 lo hi).2.1 (dpR key f0 lo hi).2.2
  have h1c : (dpT key f0 lo hi).2.2.1 ≤ (dpR key f0 lo hi).2.1 + 1 := h1
  have h2 := dpMainLoop_c_le key lo hi (dpA0 key f0 lo hi) (hi-1) (dpMedians key f0 lo hi)
  have h2c : (dpR key f0 lo hi).2.1 ≤ hi - 1 := h2
  omega

theorem doPivotF_fst_lt_snd {α : Type} (key : α → Int) (f0 : Nat → α) (lo hi : Nat)
    (h : lo + 12 < hi) : (doPivotF key f0 lo hi).1 < (doPivotF key f0 lo hi).2.1 := by
  have ha0ge : lo + 1 ≤ dpA0 key f0 lo hi :=
    dpLoop1_ge key lo (hi-1) (hi-1) (lo+1) (dpMedians key f0 lo hi)
  have ha0le : dpA0 key f0 lo hi ≤ hi - 1 := by
    have h5 := dpLoop1_le_max key lo (hi-1) (hi-1) (lo+1) (dpMedians key f0 lo hi)
    show dpLoop1 key lo (hi-1) (hi-1) (lo+1) (dpMedians key f0 lo hi) ≤ hi - 1
    omega
  have hbge : dpA0 key f0 lo hi ≤ (dpR key f0 lo hi).1 :=
    dpMainLoop_b_ge key lo hi (dpA0 key f0 lo hi) (hi-1) (dpMedians key f0 lo hi)
  have hbc : (dpR key f0 lo hi).1 = (dpR key f0 lo hi).2.1 :=
    dpMainLoop_bc_eq key lo hi (dpA0 key f0 lo hi) (hi-1) (dpMedians key f0 lo hi)
      (by omega) (by omega)
  have htble : (dpT key f0 lo hi).2.1 ≤ (dpR key f0 lo hi).1 :=
    dpDups_b_le key lo hi ((lo + hi) / 2) (dpR key f0 lo hi).1 (dpR key f0 lo hi).2.1
      (dpR key f0 lo hi).2.2
  have htge : lo + 1 ≤ (dpT key f0 lo hi).2.1 :=
    dpDups_b_ge key lo hi ((lo + hi) / 2) (dpR key f0 lo hi).1 (dpR key f0 lo hi).2.1
      (dpR key f0 lo hi).2.2 hbc h (by omega)
  have hcge : (dpR key f0 lo hi).2.1 ≤ (dpT key f0 lo hi).2.2.1 :=
    dpDups_c_ge key lo hi ((lo + hi) / 2) (dpR key f0 lo hi).1 (dpR key f0 lo hi).2.1
      (dpR key f0 lo hi).2.2
  have hfle : (doPivotF key f0 lo hi).1 ≤ (dpT key f0 lo hi).2.1 - 1 := by
    rw [doPivotF_eq]
    exact dpFinish_fst_le key lo (dpA0 key f0 lo hi) (dpT key f0 lo hi)
  have hseq : (doPivotF key f0 lo hi).2.1 = (dpT key f0 lo hi).2.2.1 := by
    rw [doPivotF_eq]
    exact dpFinish_c_eq key lo (dpA0 key f0 lo hi) (dpT key f0 lo hi)
  omega

theorem glue_sorted {α : Type} (key : α → Int) (a mlo mhi b : Nat) (g : Nat → α) (pv : Int)
    (vLow : ∀ i, a ≤ i → i < mlo → key (g i) ≤ pv)
    (vMid : ∀ i, mlo ≤ i → i < mhi → key (g i) = pv)
    (vHigh : ∀ i, mhi ≤ i → i < b → pv ≤ key (g i))
    (sLow : ∀ x y, a ≤ x → x ≤ y → y < mlo → key (g x) ≤ key (g y))
    (sHigh : ∀ x y, mhi ≤ x → x ≤ y → y < b → key (g x) ≤ key (g y))
    (hm2 : mlo ≤ mhi) :
    ∀ x y, a ≤ x → x ≤ y → y < b → key (g x) ≤ key (g y) := by
  intro x y hax hxy hyb
  rcases Nat.lt_or_ge x mlo with hx1 | hx1
  · rcases Nat.lt_or_ge y mlo with hy1 | hy1
    · exact sLow x y hax hxy hy1
    · rcases Nat.lt_or_ge y mhi with hy2 | hy2
      · exact le_trans (vLow x hax hx1) (le_of_eq (vMid y hy1 hy2).symm)
      · exact le_trans (vLow x hax hx1) (vHigh y hy2 hyb)
  · rcases Nat.lt_or_ge x mhi with hx2 | hx2
    · rcases Nat.lt_or_ge y mhi with hy2 | hy2
      · exact le_of_eq ((vMid x hx1 hx2).trans (vMid y (by omega) hy2).symm)
      · exact le_trans (le_of_eq (vMid x hx1 hx2)) (vHigh y hy2 hyb)
    · exact sHigh x y hx2 hxy hyb

theorem quickSortF_sorted {α : Type} (key : α → Int) :
    ∀ (depth : Nat) (f : Nat → α) (a b x y : Nat),
      a ≤ x → x ≤ y → y < b →
      key (quickSortF key depth f a b x) ≤ key (quickSortF key depth f a b y) := by
  intro depth
  induction depth with
  | zero =>
    intro f a b x y hax hxy hyb
    rw [quickSortF]
    split_ifs with h12 h1
    · exact heapSortF_sorted key f a b x y hax hxy hyb
    · exact insertionSortF_sorted key _ a b x y hax hxy hyb
    · have hxye : x = y := by omega
      rw [hxye]
  | succ d ih =>
    intro f a b x y hax hxy hyb
    rw [quickSortF]
    split_ifs with h12 h1
    · obtain ⟨pv, hP1, hP2, hP3⟩ := doPivotF_partition key f a b (by omega)
      have hfge := doPivotF_fst_ge key f a b (by omega)
      have hlt := doPivotF_fst_lt_snd key f a b (by omega)
      have hsle := doPivotF_snd_le key f a b (by omega)
      dsimp only
      split_ifs with hside
      · have hps1 : PermSeg a (doPivotF key f a b).1 (doPivotF key f a b).2.2
            (quickSortF key d (doPivotF key f a b).2.2 a (doPivotF key f a b).1) :=
          quickSortF_ps key d (doPivotF key f a b).2.2 a (doPivotF key f a b).1
        have hps2 : PermSeg (doPivotF key f a b).2.1 b
            (quickSortF key d (doPivotF key f a b).2.2 a (doPivotF key f a b).1)
            (quickSortF key d (quickSortF key d (doPivotF key f a b).2.2 a
              (doPivotF key f a b).1) (doPivotF key f a b).2.1 b) :=
          quickSortF_ps key d _ (doPivotF key f a b).2.1 b
        refine glue_sorted key a (doPivotF key f a b).1 (doPivotF key f a b).2.1 b _ pv
          ?_ ?_ ?_ ?_ ?_ (by omega) x y hax hxy hyb
        · intro i ha2 hb2
          rw [ps_eq_outside hps2 i (Or.inl (by omega))]
          obtain ⟨i2, hi2a, hi2b, hval⟩ := ps_index hps1 i ha2 hb2
          rw [hval]
          exact hP1 i2 hi2a hi2b
        · intro i ha2 hb2
          rw [ps_eq_outside hps2 i (Or.inl hb2), ps_eq_outside hps1 i (Or.inr ha2)]
          exact hP2 i ha2 hb2
        · intro i ha2 hb2
          obtain ⟨i2, hi2a, hi2b, hval⟩ := ps_index hps2 i ha2 hb2
          rw [hval, ps_eq_outside hps1 i2 (Or.inr (by omega))]
          exact hP3 i2 hi2a hi2b
        · intro u v hu huv hv
          rw [ps_eq_outside hps2 u (Or.inl (by omega)),
            ps_eq_outside hps2 v (Or.inl (by omega))]
          exact ih (doPivotF key f a b).2.2 a (doPivotF key f a b).1 u v hu huv hv
        · intro u v hu huv hv
          exact ih (quickSortF key d (doPivotF key f a b).2.2 a (doPivotF key f a b).1)
            (doPivotF key f a b).2.1 b u v hu huv hv
      · have hps1 : PermSeg (doPivotF key f a b).2.1 b (doPivotF key f a b).2.2
            (quickSortF key d (doPivotF key f a b).2.2 (doPivotF key f a b).2.1 b) :=
          quickSortF_ps key d (doPivotF key f a b).2.2 (doPivotF key f a b).2.1 b
        have hps2 : PermSeg a (doPivotF key f a b).1
            (quickSortF key d (doPivotF key f a b).2.2 (doPivotF key f a b).2.1 b)
            (quickSortF key d (quickSortF key d (doPivotF key f a b).2.2
              (doPivotF key f a b).2.1 b) a (doPivotF key f a b).1) :=
          quickSortF_ps key d _ a (doPivotF key f a b).1
        refine glue_sorted key a (doPivotF key f a b).1 (doPivotF key f a b).2.1 b _ pv
          ?_ ?_ ?_ ?_ ?_ (by omega) x y hax hxy hyb
        · intro i ha2 hb2
          obtain ⟨i2, hi2a, hi2b, hval⟩ := ps_index hps2 i ha2 hb2
          rw [hval, ps_eq_outside hps1 i2 (Or.inl (by omega))]
          exact hP1 i2 hi2a hi2b
        · intro i ha2 hb2
          rw [ps_eq_outside hps2 i (Or.inr ha2), ps_eq_outside hps1 i (Or.inl hb2)]
          exact hP2 i ha2 hb2
        · intro i ha2 hb2
          rw [ps_eq_outside hps2 i (Or.inr (by omega))]
          obtain ⟨i2, hi2a, hi2b, hval⟩ := ps_index hps1 i ha2 hb2
          rw [hval]
          exact hP3 i2 hi2a hi2b
        · intro u v hu huv hv
          exact ih (quickSortF key d (doPivotF key f a b).2.2 (doPivotF key f a b).2.1 b)
            a (doPivotF key f a b).1 u v hu huv hv
        · intro u v hu huv hv
          rw [ps_eq_outside hps2 u (Or.inr (by omega)),
            ps_eq_outside hps2 v (Or.inr (by omega))]
          exact ih (doPivotF key f a b).2.2 (doPivotF key f a b).2.1 b u v hu huv hv
    · exact insertionSortF_sorted key _ a b x y hax hxy hyb
    · have hxye : x = y := by omega
      rw [hxye]

theorem goSortF_sorted {α : Type} (key : α → Int) (f : Nat → α) (n : Nat) :
    ∀ x y, x ≤ y → y < n → key (goSortF key f n x) ≤ key (goSortF key f n y) :=
  fun x y hxy hyn =>
    quickSortF_sorted key (maxDepthGo n) f 0 n x y (Nat.zero_le x) hxy hyn

theorem sortDu_getD (s : List duInfo) (i : Nat) (hi : i < s.length) :
    (sortDu s).getD i default =
      goSortF duKey (fun k => s.getD k default) s.length i := by
  unfold sortDu
  have hlen : i < ((List.range s.length).map
      (goSortF duKey (fun k => s.getD k default) s.length)).length := by
    simp [hi]
  rw [List.getD_eq_getElem _ _ hlen]
  simp

/-- C2 (amended): after rendering, the non-total records are a permutation of
the parsed records in ascending order of size — the monotonicity half of the
claim holds (`size[i] <= size[j]` for all `i <= j` in the rendered non-total
sequence) — but the tie-break half is false: `sort.Sort` is not stable, so
records with equal sizes may be reordered (see the counterexample). -/
theorem renderRecords_sorted (s : List duInfo) :
    ((renderRecords s).dropLast).Perm s ∧
    ∀ i j, i ≤ j → j < s.length →
      (((renderRecords s).dropLast).getD i default).size ≤
        (((renderRecords s).dropLast).getD j default).size := by
  have hdrop : (renderRecords s).dropLast = sortDu s := by
    show (sortDu s ++ [(⟨"total".data, sumSizes (sortDu s), 0⟩ : duInfo)]).dropLast =
      sortDu s
    exact List.dropLast_concat
  rw [hdrop]
  refine ⟨sortDu_perm s, ?_⟩
  intro i j hij hj
  rw [sortDu_getD s i (by omega), sortDu_getD s j hj]
  exact goSortF_sorted duKey (fun k => s.getD k default) s.length i j hij hj

/-- C2 (witness): the amended theorem at the parsed report with sizes
`5, 3, 4`: the rendered non-total prefix is a permutation of the input and
its first size is at most its third. -/
theorem renderRecords_sorted_witness :
    ((renderRecords [⟨"a".data, 5, 0⟩, ⟨"b".data, 3, 0⟩, ⟨"c".data, 4, 0⟩]).dropLast).Perm
        [⟨"a".data, 5, 0⟩, ⟨"b".data, 3, 0⟩, ⟨"c".data, 4, 0⟩] ∧
    (((renderRecords [⟨"a".data, 5, 0⟩, ⟨"b".data, 3, 0⟩,
        ⟨"c".data, 4, 0⟩]).dropLast).getD 0 default).size ≤
      (((renderRecords [⟨"a".data, 5, 0⟩, ⟨"b".data, 3, 0⟩,
        ⟨"c".data, 4, 0⟩]).dropLast).getD 2 default).size :=
  ⟨(renderRecords_sorted [⟨"a".data, 5, 0⟩, ⟨"b".data, 3, 0⟩, ⟨"c".data, 4, 0⟩]).1,
   (renderRecords_sorted [⟨"a".data, 5, 0⟩, ⟨"b".data, 3, 0⟩, ⟨"c".data, 4, 0⟩]).2 0 2
     (by decide) (by decide)⟩

end DuFmt
